import Mathlib

/-!
# go-s3proxy: the seekable object reader and the mount resolver

A shallow embedding of `pkg/s3proxy/s3fs.go`.

* Go's `int64` values are integers reduced by `wrap64` after every addition
  and subtraction the source performs on them.
* The remote store is an oracle (`Store`): what `HeadObject` answers and what
  the `n`-th `GetObject` call answers for a byte range.
* A response body (`io.ReadCloser`) is the list of bytes it has not delivered
  yet, the most bytes it hands out per `Read` call, whether it was closed and
  how many times `Close` was called on it; what a `Close` call on it returns
  is up to the store.
* `Net` is the ledger of the network side: how many `GetObject` calls were
  issued and which response bodies were obtained and are not closed yet.
* Loops that may fail to terminate take a fuel argument and report
  `Outcome.running` when the fuel is used up before the loop condition fails.
-/

namespace S3Proxy

/-! ## Machine integers -/

/-- Two's-complement reduction of an exact integer into the `int64` range. -/
def wrap64 (x : Int) : Int :=
  (x + 9223372036854775808) % 18446744073709551616 - 9223372036854775808

/-- Go's `a + b` on `int64`. -/
def add64 (a b : Int) : Int := wrap64 (a + b)

/-- Go's `a - b` on `int64`. -/
def sub64 (a b : Int) : Int := wrap64 (a - b)

/-- Largest `int64`. -/
def maxInt64 : Int := 9223372036854775807

/-- Smallest `int64`. -/
def minInt64 : Int := -9223372036854775808

/-! ## Errors, bodies, the store -/

abbrev Byte := UInt8

/-- Error values the reader can hand back: `io.EOF`, `os.ErrInvalid`,
`os.ErrNotExist`, a failed `GetObject` call, a read on a closed body, and an
error reported by the body's `Close`. -/
inductive Err
  | EOF
  | ErrInvalid
  | ErrNotExist
  | transport
  | readAfterClose
  | closeError
  deriving DecidableEq

/-- A response body `io.ReadCloser`. `id` is the index of the `GetObject` call
that produced it, `data` the bytes still to be delivered, `burst` the most
bytes one `Read` call on it delivers, `closed` whether `Close` was called,
`closes` how many times it was called. -/
structure Body where
  id : Nat
  data : List Byte
  burst : Nat
  closed : Bool
  closes : Nat
  deriving DecidableEq

/-- Ledger of the network side of one handle. -/
structure Net where
  calls : Nat
  live : List Nat
  deriving DecidableEq

/-- The remote object store as seen by one handle: `headObject` is the
answer to the metadata probe (content length, modification time) or `none`
when it fails; `getObject n first last` is the answer to the `n`-th range
request `bytes=first-last`: the body bytes and the burst, or `none` when the
call fails; `closeResult id k` is what `Close` returns on the body of request
`id` when `k` calls of `Close` were made on that body before. -/
structure Store where
  headObject : Option (Int × Nat)
  getObject : Nat → Int → Int → Option (List Byte × Nat)
  closeResult : Nat → Nat → Option Err

/-- Bytes `[first, last]` of `obj`, as a range request returns them: the range
is cut at the end of the object. -/
def rangeOf (obj : List Byte) (first last : Int) : List Byte :=
  (obj.drop first.toNat).take (last + 1 - first).toNat

/-- A store holding `obj` that answers every range request with exactly the
bytes asked for, delivered at most `burst` at a time, and never fails. -/
def rangeStore (obj : List Byte) (burst : Nat) (mod : Nat) : Store where
  headObject := some (obj.length, mod)
  getObject := fun _ first last => some (rangeOf obj first last, burst)
  closeResult := fun _ _ => none

/-- A store like `rangeStore`, except that the calls with index in `bad` fail. -/
def flakyStore (obj : List Byte) (burst : Nat) (mod : Nat) (bad : List Nat) : Store where
  headObject := some (obj.length, mod)
  getObject := fun n first last =>
    if n ∈ bad then none else some (rangeOf obj first last, burst)
  closeResult := fun _ _ => none

/-- The call `body.Read(p)` with `len(p) = n`: a closed body reports an error, an
exhausted body reports `(0, io.EOF)`, otherwise the next bytes are delivered,
at most `n` and at most `burst` of them. -/
def bodyRead (b : Body) (n : Nat) : Body × List Byte × Option Err :=
  if b.closed then (b, [], some Err.readAfterClose)
  else if b.data.isEmpty then (b, [], some Err.EOF)
  else
    let k := min n (min b.burst b.data.length)
    ({ b with data := b.data.drop k }, b.data.take k, none)

/-- What the call `body.Close()` does to the body and the ledger: the call is
counted, the body is closed and is taken off the ledger. -/
def bodyClose (b : Body) (net : Net) : Body × Net :=
  ({ b with closed := true, closes := b.closes + 1 },
    { net with live := net.live.filter (fun i => i ≠ b.id) })

/-- What the call `body.Close()` returns: the store's answer for this body and
for the number of `Close` calls made on it before. -/
def bodyCloseResult (st : Store) (b : Body) : Option Err :=
  st.closeResult b.id b.closes

/-! ## S3File -/

def CHUNK_SIZE : Int := 1024 * 1024 * 1024

structure S3Chunk where
  offset : Int
  end_ : Int
  body : Option Body
  deriving DecidableEq

/-- The handle. `client` records whether the `*s3.S3` pointer is non-nil; the
client itself is the `Store` passed to the operations. -/
structure S3File where
  client : Bool
  bucket : List Char
  key : List Char
  size : Int
  offset : Int
  mod : Nat
  chunk : S3Chunk
  deriving DecidableEq

/-- How a call ended: it returned `(n, err)`, it panicked on a nil
dereference, or its loop was still iterating when the fuel ran out. -/
inductive Outcome
  | ret (n : Nat) (err : Option Err)
  | panic
  | running
  deriving DecidableEq

def NewS3File (st : Store) (bucket key : List Char) : Except Err S3File :=
  match st.headObject with
  | none => Except.error Err.ErrInvalid
  | some (contentLength, lastModified) =>
    Except.ok
      { client := true, bucket := bucket, key := key, size := contentLength, offset := 0,
        mod := lastModified, chunk := { offset := 0, end_ := 0, body := none } }

/-- The method `fetchChunk(start)`. The result is the handle, the ledger and `none` for a
panic (nil client), `some none` for a nil error, `some (some e)` for error `e`. -/
def fetchChunk (st : Store) (f : S3File) (net : Net) (start : Int) :
    S3File × Net × Option (Option Err) :=
  let (f1, net1) :=
    match f.chunk.body with
    | some b => ({ f with chunk := { f.chunk with body := none } }, (bodyClose b net).2)
    | none => (f, net)
  if f1.client then
    match st.getObject net1.calls start (sub64 (add64 start CHUNK_SIZE) 1) with
    | none => (f1, { net1 with calls := net1.calls + 1 }, some (some Err.transport))
    | some (bytes, burst) =>
      ({ f1 with chunk := { offset := start, end_ := add64 start CHUNK_SIZE,
                            body := some { id := net1.calls, data := bytes, burst := burst,
                                           closed := false, closes := 0 } } },
       { calls := net1.calls + 1, live := net1.calls :: net1.live }, some none)
  else (f1, net1, none)

/-- The drain loop of `Read` (`for toRead > 0`), `buf` being `p[0:bufferOffset]`.
`toRead` and `bufferOffset` stay between `-len(p)` and `len(p)`, so their `int`
arithmetic is exact. -/
def drain (lenP : Nat) : Nat → S3File → Int → List Byte → S3File × List Byte × Outcome
  | 0, f, toRead, buf =>
    if toRead > 0 then (f, buf, Outcome.running) else (f, buf, Outcome.ret buf.length none)
  | fuel + 1, f, toRead, buf =>
    if toRead > 0 then
      match f.chunk.body with
      | none => (f, buf, Outcome.panic)
      | some b =>
        let r := bodyRead b (lenP - buf.length)
        if r.2.2 ≠ none ∧ r.2.2 ≠ some Err.EOF then
          ({ f with chunk := { f.chunk with body := some r.1 } }, buf,
            Outcome.ret buf.length r.2.2)
        else
          drain lenP fuel
            { f with offset := add64 f.offset r.2.1.length,
                     chunk := { offset := add64 f.chunk.offset r.2.1.length,
                                end_ := f.chunk.end_, body := some r.1 } }
            (toRead - r.2.1.length) (buf ++ r.2.1)
    else (f, buf, Outcome.ret buf.length none)

/-- What `Read` leaves behind: the handle, the ledger, the bytes written to
`p[0:n]` and how the call ended. -/
structure ReadResult where
  file : S3File
  net : Net
  data : List Byte
  out : Outcome
  deriving DecidableEq

/-- The length `toRead` after clamping to the bytes left in the object. -/
def clampLen (f : S3File) (lenP : Nat) : Int :=
  if add64 f.offset lenP > f.size then sub64 f.size f.offset else lenP

/-- The method `Read(p)` with `len(p) = lenP`; `fuel` bounds the iterations of the drain loop. -/
def Read (st : Store) (fuel : Nat) (f : S3File) (net : Net) (lenP : Nat) : ReadResult :=
  if f.offset ≥ f.size then
    { file := f, net := net, data := [], out := Outcome.ret 0 (some Err.EOF) }
  else
    let toRead := clampLen f lenP
    if f.offset ≠ f.chunk.offset ∨ add64 f.offset toRead > f.chunk.end_ then
      match fetchChunk st f net f.offset with
      | (f1, net1, none) => { file := f1, net := net1, data := [], out := Outcome.panic }
      | (f1, net1, some (some e)) =>
        { file := f1, net := net1, data := [], out := Outcome.ret 0 (some e) }
      | (f1, net1, some none) =>
        let r := drain lenP fuel f1 toRead []
        { file := r.1, net := net1, data := r.2.1, out := r.2.2 }
    else
      let r := drain lenP fuel f toRead []
      { file := r.1, net := net, data := r.2.1, out := r.2.2 }

def SeekStart : Int := 0
def SeekCurrent : Int := 1
def SeekEnd : Int := 2

/-- The tail of `Seek` after the `switch`: the range check and the assignment. -/
def seekTo (f : S3File) (off : Int) : S3File × Int × Option Err :=
  if off < 0 ∨ off > f.size then (f, 0, some Err.ErrInvalid)
  else ({ f with offset := off }, off, none)

def Seek (f : S3File) (offset : Int) (whence : Int) : S3File × Int × Option Err :=
  if whence = SeekStart then seekTo f offset
  else if whence = SeekCurrent then seekTo f (add64 f.offset offset)
  else if whence = SeekEnd then seekTo f (add64 f.size offset)
  else (f, 0, some Err.ErrInvalid)

def Close (st : Store) (f : S3File) (net : Net) : S3File × Net × Option Err :=
  match f.chunk.body with
  | some b =>
    let r := bodyClose b net
    ({ f with chunk := { f.chunk with body := some r.1 } }, r.2, bodyCloseResult st b)
  | none => ({ f with client := false }, net, none)

/-! ## Call sequences -/

/-- One call on the handle. -/
inductive Op
  | read (lenP : Nat) (fuel : Nat)
  | seek (offset : Int) (whence : Int)
  | close
  deriving DecidableEq

def step (st : Store) (s : S3File × Net) : Op → S3File × Net
  | Op.read lenP fuel => let r := Read st fuel s.1 s.2 lenP; (r.file, r.net)
  | Op.seek offset whence => ((Seek s.1 offset whence).1, s.2)
  | Op.close => let r := Close st s.1 s.2; (r.1, r.2.1)

def run (st : Store) (s : S3File × Net) (ops : List Op) : S3File × Net :=
  ops.foldl (step st) s

/-- The ledger before any request was made. -/
def net0 : Net := { calls := 0, live := [] }

/-- Calls `Read` with a `lenP`-byte buffer until it reports `io.EOF`, collecting
the bytes returned; `none` when a call fails, panics or does not return within
`inner` iterations, or when `outer` calls did not reach `io.EOF`. -/
def readAll (st : Store) (lenP inner : Nat) :
    Nat → S3File → Net → List Byte → Option (List Byte)
  | 0, _, _, _ => none
  | outer + 1, f, net, acc =>
    let r := Read st inner f net lenP
    match r.out with
    | Outcome.ret _ (some Err.EOF) => some (acc ++ r.data)
    | Outcome.ret _ none => readAll st lenP inner outer r.file r.net (acc ++ r.data)
    | _ => none

/-! ## Reference statements and sample data -/

/-- The exact, non-wrapping target of a seek, `none` for an unknown `whence`. -/
def exactTarget (f : S3File) (offset : Int) (whence : Int) : Option Int :=
  if whence = SeekStart then some offset
  else if whence = SeekCurrent then some (f.offset + offset)
  else if whence = SeekEnd then some (f.size + offset)
  else none

/-- What the seek contract asks for, in terms of the exact target. -/
def seekSpec (f : S3File) (offset : Int) (whence : Int) : S3File × Int × Option Err :=
  match exactTarget f offset whence with
  | some t =>
    if 0 ≤ t ∧ t ≤ f.size then ({ f with offset := t }, t, none)
    else (f, 0, some Err.ErrInvalid)
  | none => (f, 0, some Err.ErrInvalid)

/-- The ledger accounts for the handle's body and nothing else. -/
def ledgerOk (s : S3File × Net) : Prop :=
  s.2.live =
    match s.1.chunk.body with
    | some b => if b.closed then [] else [b.id]
    | none => []

/-- A ten-byte object. -/
def obj10 : List Byte := [0, 1, 2, 3, 4, 5, 6, 7, 8, 9]

/-- The fresh handle `NewS3File` builds over a ten-byte object. -/
def file10 : S3File :=
  { client := true, bucket := [], key := [], size := 10, offset := 0, mod := 0,
    chunk := { offset := 0, end_ := 0, body := none } }

/-- The handle after `Read` of two bytes and `Seek(3, io.SeekStart)` on `file10`
over `rangeStore obj10 3 0`: the live chunk covers `[2, CHUNK_SIZE)` and the
offset lies one byte inside it. -/
def fileSeeked : S3File :=
  { client := true, bucket := [], key := [], size := 10, offset := 3, mod := 0,
    chunk := { offset := 2, end_ := 1073741824,
               body := some { id := 0, data := [2, 3, 4, 5, 6, 7, 8, 9], burst := 3,
                              closed := false, closes := 0 } } }

/-- The ledger that goes with `fileSeeked`. -/
def netSeeked : Net := { calls := 1, live := [0] }

/-- A handle whose probe reported ten bytes while the live body, positioned at
the handle's offset, has only two bytes left to deliver. -/
def fileShort : S3File :=
  { client := true, bucket := [], key := [], size := 10, offset := 4, mod := 0,
    chunk := { offset := 4, end_ := 1073741824,
               body := some { id := 0, data := [4, 5], burst := 3, closed := false,
                              closes := 0 } } }

/-- The handle left by a failed fetch at offset 5 followed by `Seek(2)`: the body
is nil and the chunk range is the one of the previous chunk. -/
def fileStale : S3File :=
  { client := true, bucket := [], key := [], size := 10, offset := 2, mod := 0,
    chunk := { offset := 2, end_ := 1073741824, body := none } }

/-- The ledger that goes with `fileStale`. -/
def netStale : Net := { calls := 2, live := [] }

/-- A store whose metadata probe reports ten bytes while range requests are
served from an object of six bytes (the object was replaced in between). -/
def shrunkStore : Store where
  headObject := some (10, 0)
  getObject := fun _ first last => some (rangeOf [0, 1, 2, 3, 4, 5] first last, 3)
  closeResult := fun _ _ => none

/-- A store like `rangeStore obj10 3 0` whose bodies answer every `Close` call
after the first with an error. -/
def strictStore : Store where
  headObject := some (10, 0)
  getObject := fun _ first last => some (rangeOf obj10 first last, 3)
  closeResult := fun _ k => if k = 0 then none else some Err.closeError

/-- An object one byte longer than a chunk. -/
def objBig : List Byte := List.replicate (CHUNK_SIZE + 1).toNat 0

/-- The identity and the closed flag of the handle's body. -/
def bodyTag (f : S3File) : Option (Nat × Bool) :=
  f.chunk.body.map (fun b => (b.id, b.closed))

/-- The store holds `obj` and answers faithfully: the probe reports the
object's length, and every range request `first ≤ last` that starts inside the object is
answered with exactly the bytes of the range, by a body that delivers at least
one byte per call. -/
def Faithful (st : Store) (obj : List Byte) : Prop :=
  (∃ mod, st.headObject = some ((obj.length : Int), mod)) ∧
  ∀ (n : Nat) (first last : Int), 0 ≤ first → first < obj.length → first ≤ last →
    ∃ burst, 1 ≤ burst ∧ st.getObject n first last = some (rangeOf obj first last, burst)

/-- The handle agrees with the object `obj`: the size is the object's length,
the offset lies in `[0, size]`, and a body, when there is one, is open and
holds exactly the bytes of the object from the chunk's offset to the chunk's
end (or the object's end, if that comes first). -/
def chunkOk (obj : List Byte) (f : S3File) : Prop :=
  f.size = obj.length ∧ 0 ≤ f.offset ∧ f.offset ≤ f.size ∧ f.client = true ∧
  match f.chunk.body with
  | none => f.chunk.offset = 0 ∧ f.chunk.end_ = 0
  | some b =>
    b.closed = false ∧ 1 ≤ b.burst ∧
    ∃ co ce : Nat, f.chunk.offset = co ∧ f.chunk.end_ = ce ∧ co ≤ ce ∧ co ≤ obj.length ∧
      (ce : Int) ≤ obj.length + CHUNK_SIZE ∧ b.data = (obj.drop co).take (ce - co)

/-! ## Paths and the mount table

A Go string is a byte sequence; it is modelled as a list of characters, one
per byte. The functions of Go's `strings` and `path` packages that `Open` calls
are modelled after the library. -/

abbrev Str := List Char

/-- Go's `strings.Split(s, "/")`: the pieces between the slashes, one more than
there are slashes. -/
def splitSlash : Str → List Str
  | [] => [[]]
  | c :: t =>
    if c = '/' then [] :: splitSlash t
    else
      match splitSlash t with
      | [] => [[c]]
      | s :: r => (c :: s) :: r

/-- Go's `strings.Join(elems, "/")`. -/
def joinSlash : List Str → Str
  | [] => []
  | [s] => s
  | s :: r => s ++ '/' :: joinSlash r

/-- The backing-up step of `path.Clean` on a `..` element, started after
`out.w--`: `for out.w > dotdot && out.index(out.w) != '/' { out.w-- }`. -/
def backLoop (out : Str) (dotdot : Nat) : Nat → Nat
  | 0 => 0
  | w + 1 => if w + 1 > dotdot ∧ out.get? (w + 1) ≠ some '/' then backLoop out dotdot w else w + 1

/-- The separator `path.Clean` writes before a new element:
`if rooted && out.w != 1 || !rooted && out.w != 0 { out.append('/') }`. -/
def startElem (rooted : Bool) (out : Str) : Str :=
  if (rooted = true ∧ out.length ≠ 1) ∨ (rooted = false ∧ out.length ≠ 0) then out ++ ['/']
  else out

/-- The main loop of `path.Clean` over the unread input `path[r:]`. The flag
tells whether the loop is inside the copy loop of the default case
(`for ; r < n && path[r] != '/'; r++`). -/
def cleanLoop (rooted : Bool) : Str → Bool → Str → Nat → Str
  | [], _, out, _ => out
  | c :: rest, true, out, dotdot =>
    if c = '/' then cleanLoop rooted rest false out dotdot
    else cleanLoop rooted rest true (out ++ [c]) dotdot
  | [c], false, out, _ =>
    if c = '/' then out
    else if c = '.' then out
    else startElem rooted out ++ [c]
  | c :: d :: rest, false, out, dotdot =>
    if c = '/' then cleanLoop rooted (d :: rest) false out dotdot
    else if c = '.' ∧ d = '/' then cleanLoop rooted (d :: rest) false out dotdot
    else if c = '.' ∧ d = '.' ∧ (rest = [] ∨ rest.head? = some '/') then
      if out.length > dotdot then
        cleanLoop rooted rest false (out.take (backLoop out dotdot (out.length - 1))) dotdot
      else if rooted = false then
        cleanLoop rooted rest false ((if out.length > 0 then out ++ ['/'] else out) ++ ['.', '.'])
          ((if out.length > 0 then out ++ ['/'] else out) ++ ['.', '.']).length
      else cleanLoop rooted rest false out dotdot
    else cleanLoop rooted (d :: rest) true (startElem rooted out ++ [c]) dotdot

/-- Go's `path.Clean`. -/
def Clean (path : Str) : Str :=
  match path with
  | [] => ['.']
  | c :: rest =>
    let out :=
      if c = '/' then cleanLoop true rest false ['/'] 1
      else cleanLoop false (c :: rest) false [] 0
    if out.length = 0 then ['.'] else out

/-- Go's `path.Join`: the elements from the first non-empty one on, joined by
slashes and cleaned; the empty string when all are empty. -/
def Join : List Str → Str
  | [] => []
  | e :: rest => if e ≠ [] then Clean (joinSlash (e :: rest)) else Join rest

structure BucketOpts where
  Bucket : Str
  Region : Str
  Key : Str
  Secret : Str
  deriving DecidableEq

/-- What `s3.New(sess)` is built from. -/
structure Client where
  region : Str
  key : Str
  secret : Str
  deriving DecidableEq

/-- The two Go maps of `S3Fs`, as association lists read with `List.lookup`;
an assignment `m[k] = v` puts `(k, v)` in front. -/
structure S3Fs where
  clients : List (Str × Client)
  buckets : List (Str × Str)
  deriving DecidableEq

/-- The client `NewS3Fs` configures for a mount: the region defaults to
`us-west-1`. -/
def clientFor (v : BucketOpts) : Client :=
  { region := if v.Region = [] then "us-west-1".toList else v.Region,
    key := v.Key, secret := v.Secret }

/-- One iteration of the loop of `NewS3Fs` for the map entry `kv`; `newSession`
tells for which client configurations `session.NewSession` succeeds. -/
def addMount (newSession : Client → Bool) (fs : S3Fs) (kv : Str × BucketOpts) : S3Fs :=
  let bucket := if kv.2.Bucket ≠ [] then kv.2.Bucket else kv.1
  if newSession (clientFor kv.2) then
    { clients := (bucket, clientFor kv.2) :: fs.clients,
      buckets := (kv.1, bucket) :: fs.buckets }
  else fs

/-- The constructor `NewS3Fs` over the entries of the map `bucketOpts`, in the order the `range`
loop visits them. -/
def NewS3Fs (newSession : Client → Bool) (bucketOpts : List (Str × BucketOpts)) : S3Fs :=
  bucketOpts.foldl (addMount newSession) { clients := [], buckets := [] }

/-- How `Open` ends: with `(nil, os.ErrNotExist)`, in the call
`fs.getListing(bucket, mount)`, in the call `fs.getObject(bucket, key)`, or in a
run-time panic of an index or slice expression. -/
inductive Dispatch
  | notExist
  | getListing (bucket mount : Str)
  | getObject (bucket key : Str)
  | panic
  deriving DecidableEq

def Open (fs : S3Fs) (filePath : Str) : Dispatch :=
  match Clean filePath with
  | [] => Dispatch.panic
  | _ :: tl =>
    match splitSlash tl with
    | [] => Dispatch.panic
    | mount :: more =>
      let key := if (mount :: more).length > 1 then '/' :: Join more else []
      match fs.buckets.lookup mount with
      | none => Dispatch.notExist
      | some bucket =>
        if key = [] then Dispatch.getListing bucket mount else Dispatch.getObject bucket key

/-- The name `Open` looks up in the mount table: `components[0]`, the first
piece of `cleaned[1:]`, that is of the cleaned path without its first byte,
whatever that byte is; `none` when the slice or the index is out of range. -/
def openMount (filePath : Str) : Option Str :=
  ((Clean filePath).tail?.bind (fun tl => (splitSlash tl).head?))

/-- A path without its leading slash, if it has one. -/
def stripSlash : Str → Str
  | [] => []
  | c :: t => if c = '/' then t else c :: t

/-- The first segment of the normalised path: the path is cleaned, a leading
slash is set aside, and the piece up to the next slash is taken. -/
def firstSegment (filePath : Str) : Str :=
  match splitSlash (stripSlash (Clean filePath)) with
  | [] => []
  | s :: _ => s

/-- A path element `path.Clean` leaves alone: not empty, not `.`, not `..`, and
free of slashes. -/
def goodSeg (s : Str) : Prop :=
  s ≠ [] ∧ s ≠ ['.'] ∧ s ≠ ['.', '.'] ∧ '/' ∉ s

instance (s : Str) : Decidable (goodSeg s) := by
  unfold goodSeg
  infer_instance

/-- A key in normal form: not empty, no leading or trailing slash, no empty,
`.` or `..` segment. -/
def normalKey (k : Str) : Prop :=
  ∀ s ∈ splitSlash k, goodSeg s

instance (k : Str) : Decidable (normalKey k) := by
  unfold normalKey
  infer_instance

/-- A sample configuration: mount `m` on bucket `b`, and mount `x` without a
bucket name of its own. -/
def optsSample : List (Str × BucketOpts) :=
  [("m".toList, { Bucket := "b".toList, Region := [], Key := "k1".toList, Secret := [] }),
   ("x".toList, { Bucket := [], Region := [], Key := "k2".toList, Secret := [] })]

/-- A sample `session.NewSession` that fails for the access key `k2`. -/
def sessionSample (c : Client) : Bool := c.key ≠ "k2".toList

/-- A sample mount table: mount `m` on bucket `b`, mount `a/b` on bucket `c`. -/
def fsSample : S3Fs :=
  { clients := [], buckets := [("m".toList, "b".toList), ("a/b".toList, "c".toList)] }

/-! # Theorems -/

/-! ## Machine integers -/

theorem wrap64_of_range (x : Int) (h1 : minInt64 ≤ x) (h2 : x ≤ maxInt64) : wrap64 x = x := by
  unfold minInt64 at h1
  unfold maxInt64 at h2
  unfold wrap64
  omega

theorem wrap64_lit (x : Int) (h1 : -9223372036854775808 ≤ x) (h2 : x ≤ 9223372036854775807) :
    wrap64 x = x := by
  unfold wrap64
  omega

theorem wrap64_seek (c o : Int) (hc0 : 0 ≤ c) (hc1 : c ≤ maxInt64)
    (ho0 : minInt64 ≤ o) (ho1 : o ≤ maxInt64) :
    (c + o ≤ maxInt64 → wrap64 (c + o) = c + o) ∧ (maxInt64 < c + o → wrap64 (c + o) < 0) := by
  unfold minInt64 at ho0
  unfold maxInt64 at *
  unfold wrap64
  omega

/-! ## Seek -/

theorem seekTo_exact (f : S3File) (t w : Int) (hS : f.size ≤ maxInt64)
    (h1 : t ≤ maxInt64 → w = t) (h2 : maxInt64 < t → w < 0) :
    seekTo f w =
      if 0 ≤ t ∧ t ≤ f.size then ({ f with offset := t }, t, none)
      else (f, 0, some Err.ErrInvalid) := by
  unfold seekTo
  by_cases ht : t ≤ maxInt64
  · rw [h1 ht]
    by_cases hr : 0 ≤ t ∧ t ≤ f.size
    · have : ¬ (t < 0 ∨ t > f.size) := by omega
      rw [if_neg this, if_pos hr]
    · have : t < 0 ∨ t > f.size := by omega
      rw [if_pos this, if_neg hr]
  · have hw := h2 (by omega)
    have : w < 0 ∨ w > f.size := Or.inl hw
    have hr : ¬ (0 ≤ t ∧ t ≤ f.size) := by omega
    rw [if_pos this, if_neg hr]

/-- C3: for a handle with `0 ≤ offset ≤ size` and any `int64` argument, `Seek`
does what the exact (non-wrapping) target dictates: it moves to the target
and returns it when the target lies in `[0, size]`, and otherwise, as for an
unknown `whence`, returns `(0, os.ErrInvalid)` with the handle unchanged. -/
theorem Seek_eq_seekSpec (f : S3File) (o whence : Int)
    (hc0 : 0 ≤ f.offset) (hc1 : f.offset ≤ f.size) (hS : f.size ≤ maxInt64)
    (ho0 : minInt64 ≤ o) (ho1 : o ≤ maxInt64) :
    Seek f o whence = seekSpec f o whence := by
  unfold Seek seekSpec exactTarget
  by_cases h0 : whence = SeekStart
  · simp only [h0, if_true]
    exact seekTo_exact f o o hS (fun _ => rfl) (fun h => by omega)
  · by_cases h1 : whence = SeekCurrent
    · simp only [h0, h1, if_true, if_false]
      have hw := wrap64_seek f.offset o hc0 (by omega) ho0 ho1
      exact seekTo_exact f (f.offset + o) (add64 f.offset o) hS hw.1 hw.2
    · by_cases h2 : whence = SeekEnd
      · simp only [h0, h1, h2, if_true, if_false]
        have hw := wrap64_seek f.size o (by omega) hS ho0 ho1
        exact seekTo_exact f (f.size + o) (add64 f.size o) hS hw.1 hw.2
      · simp only [h0, h1, h2, if_false]

theorem Seek_eq_seekSpec_witness :
    Seek file10 (-3) SeekEnd = seekSpec file10 (-3) SeekEnd ∧
      Seek file10 (-3) SeekEnd = ({ file10 with offset := 7 }, 7, none) :=
  ⟨Seek_eq_seekSpec file10 (-3) SeekEnd (by decide) (by decide) (by decide) (by decide)
    (by decide), by decide⟩

/-! ## Close -/

/-- C8 (the code at the failing states): on a handle holding a body, `Close`
calls `body.Close()` and returns at once, keeping the body pointer and the
client; a second `Close` therefore calls `body.Close()` on the same body once
more and returns whatever that second call returns. The body has then been
closed twice, the handle is not the one the first `Close` left, and the
result is nil only if the body answers a repeated `Close` with nil. -/
theorem Close_twice_closes_body_twice (st : Store) (f : S3File) (net : Net) (b : Body)
    (hb : f.chunk.body = some b) :
    (Close st f net).1.chunk.body = some { b with closed := true, closes := b.closes + 1 } ∧
    (Close st f net).1.client = f.client ∧
    (Close st (Close st f net).1 (Close st f net).2.1).1.chunk.body
      = some { b with closed := true, closes := b.closes + 2 } ∧
    (Close st (Close st f net).1 (Close st f net).2.1).2.2
      = st.closeResult b.id (b.closes + 1) ∧
    (Close st (Close st f net).1 (Close st f net).2.1).1 ≠ (Close st f net).1 := by
  obtain ⟨cl, bk, k, sz, off, md, ⟨co, ce, body⟩⟩ := f
  simp only at hb
  subst hb
  refine ⟨rfl, rfl, rfl, rfl, ?_⟩
  intro h
  have h1 := congrArg (fun g : S3File => g.chunk.body.map Body.closes) h
  simp only [Close, bodyClose, Option.map_some', Option.some.injEq] at h1
  omega

theorem Close_twice_closes_body_twice_witness :
    run strictStore (file10, net0) [Op.read 2 5, Op.seek 3 SeekStart] = (fileSeeked, netSeeked) ∧
    (Close strictStore fileSeeked netSeeked).2.2 = none ∧
    (Close strictStore (Close strictStore fileSeeked netSeeked).1
        (Close strictStore fileSeeked netSeeked).2.1).1.chunk.body
      = some { id := 0, data := [2, 3, 4, 5, 6, 7, 8, 9], burst := 3, closed := true,
               closes := 2 } ∧
    (Close strictStore (Close strictStore fileSeeked netSeeked).1
        (Close strictStore fileSeeked netSeeked).2.1).2.2 = some Err.closeError :=
  ⟨by decide, by decide,
    (Close_twice_closes_body_twice strictStore fileSeeked netSeeked _ rfl).2.2.1,
    (Close_twice_closes_body_twice strictStore fileSeeked netSeeked _ rfl).2.2.2.1⟩

/-! ## Fetching -/

theorem fetchChunk_calls (st : Store) (f : S3File) (net : Net) (start : Int)
    (h : f.client = true) : (fetchChunk st f net start).2.1.calls = net.calls + 1 := by
  obtain ⟨cl, bk, k, sz, off, md, ⟨co, ce, body⟩⟩ := f
  simp only at h
  subst h
  cases body with
  | none =>
    simp only [fetchChunk, if_true]
    split <;> rfl
  | some b =>
    simp only [fetchChunk, bodyClose, if_true]
    split <;> rfl

/-- C4 (amended): on a handle whose client is set, `Read` issues one
`GetObject` call when the offset is short of the size and either differs from
the chunk's offset or the clamped range runs past the chunk's end, and issues
none otherwise; in particular a range that starts exactly at the chunk's
offset and ends within the chunk is served without a fetch. -/
theorem Read_fetches_iff (st : Store) (fuel : Nat) (f : S3File) (net : Net) (lenP : Nat)
    (hcl : f.client = true) :
    (Read st fuel f net lenP).net.calls =
      if f.offset < f.size ∧
          (f.offset ≠ f.chunk.offset ∨ add64 f.offset (clampLen f lenP) > f.chunk.end_)
      then net.calls + 1 else net.calls := by
  unfold Read
  by_cases h1 : f.offset ≥ f.size
  · have : ¬ f.offset < f.size := by omega
    simp [h1, this]
  · have h1' : f.offset < f.size := by omega
    simp only [h1, if_false]
    by_cases h2 : f.offset ≠ f.chunk.offset ∨ add64 f.offset (clampLen f lenP) > f.chunk.end_
    · rw [if_pos h2, if_pos ⟨h1', h2⟩]
      have hc := fetchChunk_calls st f net f.offset hcl
      rcases hfc : fetchChunk st f net f.offset with ⟨f1, net1, r⟩
      rw [hfc] at hc
      rcases r with _ | _ | e <;> exact hc
    · rw [if_neg h2, if_neg (fun h => h2 h.2)]

/-- C4 (as stated, refuted): the handle `fileSeeked` is reached by a `Read` and a
`Seek`, holds a live chunk and is asked for one byte inside the chunk's range,
yet `Read` issues a `GetObject` call, because the offset is not the chunk's. -/
theorem Read_refetches_inside_chunk :
    run (rangeStore obj10 3 0) (file10, net0) [Op.read 2 5, Op.seek 3 SeekStart]
        = (fileSeeked, netSeeked) ∧
    ¬ (∀ (st : Store) (fuel : Nat) (f : S3File) (net : Net) (lenP : Nat) (b : Body),
        f.chunk.body = some b → b.closed = false →
        f.chunk.offset ≤ f.offset → f.offset + clampLen f lenP ≤ f.chunk.end_ →
        (Read st fuel f net lenP).net.calls = net.calls) := by
  refine ⟨by decide, fun h => ?_⟩
  have h1 := h (rangeStore obj10 3 0) 5 fileSeeked netSeeked 1 _ rfl rfl (by decide) (by decide)
  revert h1
  decide

theorem Read_fetches_iff_witness :
    (Read (rangeStore obj10 3 0) 5 fileSeeked netSeeked 1).net.calls =
      if fileSeeked.offset < fileSeeked.size ∧
          (fileSeeked.offset ≠ fileSeeked.chunk.offset ∨
            add64 fileSeeked.offset (clampLen fileSeeked 1) > fileSeeked.chunk.end_)
      then netSeeked.calls + 1 else netSeeked.calls :=
  Read_fetches_iff (rangeStore obj10 3 0) 5 fileSeeked netSeeked 1 (by decide)

/-! ## The drain loop -/

theorem bodyRead_open (b : Body) (n : Nat) (h : b.closed = false) :
    (bodyRead b n).2.2 = none ∨ (bodyRead b n).2.2 = some Err.EOF := by
  unfold bodyRead
  rw [h]
  by_cases he : b.data.isEmpty <;> simp [he]

theorem bodyRead_length (b : Body) (n : Nat) :
    (bodyRead b n).1.data.length + (bodyRead b n).2.1.length = b.data.length ∧
    (bodyRead b n).1.closed = b.closed ∧ (bodyRead b n).1.id = b.id ∧
    (bodyRead b n).1.burst = b.burst ∧ (bodyRead b n).2.1.length ≤ n := by
  unfold bodyRead
  by_cases hc : b.closed
  · simp [hc]
  · by_cases he : b.data.isEmpty
    · simp [hc, he]
    · simp only [hc, he, Bool.false_eq_true, if_false, List.length_drop, List.length_take]
      exact ⟨by omega, trivial, trivial, trivial, by omega⟩

/-- While the open body holds fewer bytes than are outstanding, the loop does
not return, whatever the number of iterations. -/
theorem drain_short_running (lenP : Nat) :
    ∀ (fuel : Nat) (f : S3File) (toRead : Int) (buf : List Byte) (b : Body),
      f.chunk.body = some b → b.closed = false → (b.data.length : Int) < toRead →
      (drain lenP fuel f toRead buf).2.2 = Outcome.running := by
  intro fuel
  induction fuel with
  | zero =>
    intro f toRead buf b _ _ hlt
    have : toRead > 0 := by omega
    simp [drain, this]
  | succ fuel ih =>
    intro f toRead buf b hb hopen hlt
    have hpos : toRead > 0 := by omega
    have herr := bodyRead_open b (lenP - buf.length) hopen
    have hlen := bodyRead_length b (lenP - buf.length)
    have hno : ¬ ((bodyRead b (lenP - buf.length)).2.2 ≠ none ∧
        (bodyRead b (lenP - buf.length)).2.2 ≠ some Err.EOF) := by
      rcases herr with h | h <;> simp [h]
    simp only [drain, hpos, if_true, hb, hno, if_false]
    apply ih _ _ _ (bodyRead b (lenP - buf.length)).1 rfl
    · rw [hlen.2.1]; exact hopen
    · omega

/-- C5 (the code at the failing states): when `Read` reuses the live chunk and
the open body holds fewer bytes than the clamped request, the call has not
returned after any number of loop iterations: once the body reports
`(0, io.EOF)` the loop keeps iterating. -/
theorem Read_spins_when_body_runs_dry (st : Store) (fuel : Nat) (f : S3File) (net : Net)
    (lenP : Nat) (b : Body) (hb : f.chunk.body = some b) (hopen : b.closed = false)
    (hoff : f.offset < f.size) (hsame : f.offset = f.chunk.offset)
    (hin : add64 f.offset (clampLen f lenP) ≤ f.chunk.end_)
    (hshort : (b.data.length : Int) < clampLen f lenP) :
    (Read st fuel f net lenP).out = Outcome.running := by
  unfold Read
  have h1 : ¬ f.offset ≥ f.size := by omega
  have h2 : ¬ (f.offset ≠ f.chunk.offset ∨ add64 f.offset (clampLen f lenP) > f.chunk.end_) := by
    intro h
    rcases h with h | h
    · exact h hsame
    · omega
  simp only [h1, if_false, h2]
  exact drain_short_running lenP fuel f _ [] b hb hopen hshort

theorem Read_spins_when_body_runs_dry_witness :
    run shrunkStore (file10, net0) [Op.read 4 5] = (fileShort, netSeeked) ∧
    (Read shrunkStore 7 fileShort netSeeked 5).out = Outcome.running ∧
    (Read shrunkStore 7 fileShort netSeeked 5).data = [4, 5] :=
  ⟨by decide,
    Read_spins_when_body_runs_dry shrunkStore 7 fileShort netSeeked 5 _ rfl rfl
      (by decide) (by decide) (by decide) (by decide), by decide⟩

theorem objBig_length : (objBig.length : Int) = CHUNK_SIZE + 1 := by
  unfold objBig
  rw [List.length_replicate]
  decide

theorem rangeOf_length (obj : List Byte) (first last : Int) :
    (rangeOf obj first last).length
      = min (last + 1 - first).toNat (obj.length - first.toNat) := by
  unfold rangeOf
  rw [List.length_take, List.length_drop]

/-- A `Read` that fetches a chunk shorter than the clamped request does not
return. -/
theorem Read_fetch_short (st : Store) (fuel : Nat) (f : S3File) (net : Net) (lenP : Nat)
    (bytes : List Byte) (burst : Nat)
    (hoff : f.offset < f.size) (hnil : f.chunk.body = none) (hcl : f.client = true)
    (hfetch : f.offset ≠ f.chunk.offset ∨ add64 f.offset (clampLen f lenP) > f.chunk.end_)
    (hget : st.getObject net.calls f.offset (sub64 (add64 f.offset CHUNK_SIZE) 1)
      = some (bytes, burst))
    (hshort : (bytes.length : Int) < clampLen f lenP) :
    (Read st fuel f net lenP).out = Outcome.running := by
  unfold Read
  have h1 : ¬ f.offset ≥ f.size := by omega
  simp only [h1, if_false, hfetch, if_true]
  simp only [fetchChunk, hnil, hcl, if_true, hget]
  exact drain_short_running lenP fuel _ _ [] _ rfl rfl hshort

/-- C1 (the code at the failing input): over a faithful store holding an
object of `CHUNK_SIZE + 1` bytes, the first `Read` on the fresh handle with a
buffer of `CHUNK_SIZE + 1` bytes has not returned after any number of loop
iterations, whatever the burst size of the body. -/
theorem Read_never_returns_past_one_chunk (burst fuel : Nat) :
    ∃ f, NewS3File (rangeStore objBig burst 0) [] [] = Except.ok f ∧
      (Read (rangeStore objBig burst 0) fuel f net0 (CHUNK_SIZE + 1).toNat).out
        = Outcome.running := by
  refine ⟨_, rfl, ?_⟩
  have hlen := objBig_length
  have hc : CHUNK_SIZE = 1073741824 := by decide
  have hn : ((CHUNK_SIZE + 1).toNat : Int) = 1073741825 := by decide
  have hclamp : clampLen
      { client := true, bucket := [], key := [], size := (objBig.length : Int), offset := 0,
        mod := 0, chunk := { offset := 0, end_ := 0, body := none } } (CHUNK_SIZE + 1).toNat
      = 1073741825 := by
    simp only [clampLen, hn, hlen, hc]
    decide
  apply Read_fetch_short _ _ _ _ _ (rangeOf objBig 0 (sub64 (add64 0 CHUNK_SIZE) 1)) burst
  · show (0 : Int) < (objBig.length : Int)
    omega
  · rfl
  · rfl
  · right
    show add64 0 (clampLen _ _) > 0
    rw [hclamp]
    decide
  · rfl
  · rw [hclamp, rangeOf_length]
    have h2 : sub64 (add64 0 CHUNK_SIZE) 1 = 1073741823 := by decide
    rw [h2]
    have h3 : ((1073741823 : Int) + 1 - 0).toNat = 1073741824 := by decide
    rw [h3]
    omega

/-- C10 (the code at the failing input): over a store whose second `GetObject`
call fails, the calls `Read` (2 bytes), `Seek(5)`, `Read` (2 bytes, the fetch
fails and the error is returned), `Seek(2)` leave a handle with a nil body
whose chunk range is still `[2, CHUNK_SIZE)`; the next two-byte `Read` skips the
fetch, enters the drain loop with two bytes outstanding and dereferences the
nil body. -/
theorem Read_nil_body_after_failed_fetch :
    NewS3File (flakyStore obj10 3 0 [1]) [] [] = Except.ok file10 ∧
    (Read (flakyStore obj10 3 0 [1]) 5
        (run (flakyStore obj10 3 0 [1]) (file10, net0) [Op.read 2 5, Op.seek 5 SeekStart]).1
        (run (flakyStore obj10 3 0 [1]) (file10, net0) [Op.read 2 5, Op.seek 5 SeekStart]).2
        2).out = Outcome.ret 0 (some Err.transport) ∧
    run (flakyStore obj10 3 0 [1]) (file10, net0)
        [Op.read 2 5, Op.seek 5 SeekStart, Op.read 2 5, Op.seek 2 SeekStart]
      = (fileStale, netStale) ∧
    fileStale.chunk.body = none ∧
    fileStale.offset = fileStale.chunk.offset ∧
    add64 fileStale.offset (clampLen fileStale 2) ≤ fileStale.chunk.end_ ∧
    clampLen fileStale 2 = 2 ∧
    Read (flakyStore obj10 3 0 [1]) 5 fileStale netStale 2
      = { file := fileStale, net := netStale, data := [], out := Outcome.panic } :=
  ⟨rfl, by decide, by decide, by decide, by decide, by decide, by decide, by decide⟩

/-! ## The ledger of open bodies -/

theorem drain_bodyTag (lenP : Nat) :
    ∀ (fuel : Nat) (f : S3File) (toRead : Int) (buf : List Byte),
      bodyTag (drain lenP fuel f toRead buf).1 = bodyTag f := by
  intro fuel
  induction fuel with
  | zero =>
    intro f toRead buf
    unfold drain
    split <;> rfl
  | succ fuel ih =>
    intro f toRead buf
    unfold drain
    split
    · cases hb : f.chunk.body with
      | none => rfl
      | some b =>
        have hlen := bodyRead_length b (lenP - buf.length)
        simp only
        split
        · simp [bodyTag, hb, hlen.2.1, hlen.2.2.1]
        · rw [ih]
          simp [bodyTag, hb, hlen.2.1, hlen.2.2.1]
    · rfl

theorem ledgerOk_of_bodyTag (f g : S3File) (net : Net) (h : bodyTag g = bodyTag f)
    (hf : ledgerOk (f, net)) : ledgerOk (g, net) := by
  unfold ledgerOk at *
  unfold bodyTag at h
  rw [hf]
  cases hg : g.chunk.body with
  | none =>
    cases hfb : f.chunk.body with
    | none => rfl
    | some b => simp [hg, hfb] at h
  | some c =>
    cases hfb : f.chunk.body with
    | none => simp [hg, hfb] at h
    | some b =>
      simp only [hg, hfb, Option.map_some', Option.some.injEq, Prod.mk.injEq] at h
      simp [h.1, h.2]

theorem fetchChunk_ledgerOk (st : Store) (f : S3File) (net : Net) (start : Int)
    (h : ledgerOk (f, net)) :
    ledgerOk ((fetchChunk st f net start).1, (fetchChunk st f net start).2.1) := by
  obtain ⟨cl, bk, k, sz, off, md, ⟨co, ce, body⟩⟩ := f
  unfold ledgerOk at h
  simp only at h
  have hlive : (match body with
      | some b => (bodyClose b net).2
      | none => net).live = [] := by
    cases body with
    | none => exact h
    | some b =>
      simp only [bodyClose]
      rw [h]
      by_cases hc : b.closed <;> simp [hc]
  cases body with
  | none =>
    simp only at hlive
    cases cl
    · simp [fetchChunk, ledgerOk, hlive]
    · simp only [fetchChunk, if_true]
      split
      · simp [ledgerOk, hlive]
      · simp [ledgerOk, hlive]
  | some b =>
    simp only at hlive
    cases cl
    · simp [fetchChunk, ledgerOk, hlive]
    · simp only [fetchChunk, if_true]
      split
      · simp [ledgerOk, hlive]
      · simp [ledgerOk, hlive]

theorem Read_ledgerOk (st : Store) (fuel : Nat) (f : S3File) (net : Net) (lenP : Nat)
    (h : ledgerOk (f, net)) :
    ledgerOk ((Read st fuel f net lenP).file, (Read st fuel f net lenP).net) := by
  unfold Read
  split
  · exact h
  · simp only
    split
    · have hf := fetchChunk_ledgerOk st f net f.offset h
      rcases hfc : fetchChunk st f net f.offset with ⟨f1, net1, r⟩
      rw [hfc] at hf
      rcases r with _ | _ | e
      · exact hf
      · exact ledgerOk_of_bodyTag f1 _ net1 (drain_bodyTag lenP fuel f1 _ []) hf
      · exact hf
    · exact ledgerOk_of_bodyTag f _ net (drain_bodyTag lenP fuel f _ []) h

theorem Seek_chunk (f : S3File) (o w : Int) : (Seek f o w).1.chunk = f.chunk := by
  unfold Seek seekTo
  split_ifs <;> rfl

theorem Close_ledgerOk (st : Store) (f : S3File) (net : Net) (h : ledgerOk (f, net)) :
    ledgerOk ((Close st f net).1, (Close st f net).2.1) := by
  obtain ⟨cl, bk, k, sz, off, md, ⟨co, ce, body⟩⟩ := f
  unfold ledgerOk at *
  cases body with
  | none => exact h
  | some b =>
    simp only at h
    simp only [Close, bodyClose, if_true]
    rw [h]
    by_cases hc : b.closed <;> simp [hc]

theorem step_ledgerOk (st : Store) (s : S3File × Net) (op : Op) (h : ledgerOk s) :
    ledgerOk (step st s op) := by
  cases op with
  | read lenP fuel => exact Read_ledgerOk st fuel s.1 s.2 lenP h
  | seek o w =>
    unfold ledgerOk at *
    simp only [step, Seek_chunk]
    exact h
  | close => exact Close_ledgerOk st s.1 s.2 h

theorem run_ledgerOk (st : Store) (ops : List Op) :
    ∀ s, ledgerOk s → ledgerOk (run st s ops) := by
  induction ops with
  | nil => intro s h; exact h
  | cons op ops ih =>
    intro s h
    exact ih _ (step_ledgerOk st s op h)

/-- C9: after any sequence of `Read`, `Seek` and `Close` calls on a handle
built by `NewS3File`, over any store (failing calls included) and with the
loops cut at any iteration, at most one body obtained from `GetObject` is
open, and it is the one the handle holds. -/
theorem at_most_one_open_body (st : Store) (bucket key : List Char) (f : S3File)
    (ops : List Op) (hnew : NewS3File st bucket key = Except.ok f) :
    (run st (f, net0) ops).2.live.length ≤ 1 ∧ ledgerOk (run st (f, net0) ops) := by
  have h0 : ledgerOk (f, net0) := by
    unfold NewS3File at hnew
    cases hh : st.headObject with
    | none => simp [hh] at hnew
    | some p =>
      simp only [hh, Except.ok.injEq] at hnew
      subst hnew
      rfl
  have h := run_ledgerOk st ops _ h0
  refine ⟨?_, h⟩
  unfold ledgerOk at h
  rw [h]
  split
  · split <;> simp
  · simp

theorem at_most_one_open_body_witness :
    (run (flakyStore obj10 3 0 [1]) (file10, net0)
        [Op.read 2 5, Op.close, Op.seek 5 SeekStart, Op.read 2 5, Op.read 4 5, Op.close]).2.live.length
      ≤ 1 ∧
    ledgerOk (run (flakyStore obj10 3 0 [1]) (file10, net0)
        [Op.read 2 5, Op.close, Op.seek 5 SeekStart, Op.read 2 5, Op.read 4 5, Op.close]) :=
  at_most_one_open_body (flakyStore obj10 3 0 [1]) [] [] file10 _ rfl

/-! ## Reading over a faithful store -/

theorem bodyRead_eq (b : Body) (n : Nat) (hopen : b.closed = false) :
    bodyRead b n =
      ({ b with data := b.data.drop (min n (min b.burst b.data.length)) },
        b.data.take (min n (min b.burst b.data.length)),
        if b.data.isEmpty then some Err.EOF else none) := by
  obtain ⟨id, data, burst, closed, closes⟩ := b
  simp only at hopen
  subst hopen
  unfold bodyRead
  cases data with
  | nil => simp
  | cons a l => simp

/-- With an open body that holds the outstanding bytes and delivers at least
one byte per call, the loop returns after at most `t` iterations, having moved
exactly the next `t` bytes of the body into the buffer. -/
theorem drain_exact (lenP : Nat) :
    ∀ (fuel t : Nat) (f : S3File) (buf : List Byte) (b : Body),
      f.chunk.body = some b → b.closed = false → 1 ≤ b.burst → t ≤ fuel →
      min (lenP - buf.length) b.data.length = t →
      0 ≤ f.offset → f.offset + t ≤ maxInt64 →
      0 ≤ f.chunk.offset → f.chunk.offset + t ≤ maxInt64 →
      drain lenP fuel f t buf =
        ({ f with offset := f.offset + t,
                  chunk := { offset := f.chunk.offset + t, end_ := f.chunk.end_,
                             body := some { b with data := b.data.drop t } } },
          buf ++ b.data.take t, Outcome.ret (buf.length + t) none) := by
  intro fuel
  induction fuel with
  | zero =>
    intro t f buf b hb _ _ ht _ _ _ _ _
    have : t = 0 := by omega
    subst this
    obtain ⟨cl, bk, k, sz, off, md, ⟨co, ce, body⟩⟩ := f
    simp only at hb
    subst hb
    simp [drain]
  | succ fuel ih =>
    intro t f buf b hb hopen hburst ht hmin ho0 ho1 hc0 hc1
    by_cases h0 : t = 0
    · subst h0
      obtain ⟨cl, bk, k, sz, off, md, ⟨co, ce, body⟩⟩ := f
      simp only at hb
      subst hb
      simp [drain]
    · have hpos : (t : Int) > 0 := by omega
      have hne : b.data.isEmpty = false := by
        cases hd : b.data with
        | nil => rw [hd] at hmin; simp at hmin; omega
        | cons a l => rfl
      simp only [drain, hpos, if_true, hb, bodyRead_eq b _ hopen, hne]
      simp only [Bool.false_eq_true, if_false, ne_eq, not_true_eq_false, false_and,
        List.length_take]
      generalize hk : min (min (lenP - buf.length) (min b.burst b.data.length)) b.data.length = k
      generalize hk' : min (lenP - buf.length) (min b.burst b.data.length) = k' at hk
      have hkk : k' = k := by omega
      subst hkk
      have hkt : k' ≤ t := by omega
      have hk1 : 1 ≤ k' := by omega
      have hcast : ((t : Int) - (k' : Int)) = ((t - k' : Nat) : Int) := by omega
      rw [hcast]
      have hw1 : add64 f.offset k' = f.offset + k' := by
        unfold add64
        apply wrap64_of_range <;> unfold minInt64 maxInt64 at * <;> omega
      have hw2 : add64 f.chunk.offset k' = f.chunk.offset + k' := by
        unfold add64
        apply wrap64_of_range <;> unfold minInt64 maxInt64 at * <;> omega
      rw [ih (t - k') _ (buf ++ List.take k' b.data) { b with data := b.data.drop k' } rfl hopen
        hburst (by omega)
        (by simp only [List.length_append, List.length_take, List.length_drop]; omega)
        (by simp only [hw1]; omega) (by simp only [hw1]; omega)
        (by simp only [hw2]; omega) (by simp only [hw2]; omega)]
      simp only [hw1, hw2, List.drop_drop, List.append_assoc, List.length_append,
        List.length_take]
      have e1 : k' + (t - k') = t := by omega
      have e2 : f.offset + (k' : Int) + ((t - k' : Nat) : Int) = f.offset + t := by omega
      have e3 : f.chunk.offset + (k' : Int) + ((t - k' : Nat) : Int) = f.chunk.offset + t := by
        omega
      have e4 : List.take k' b.data ++ List.take (t - k') (List.drop k' b.data)
          = List.take t b.data := by
        rw [← List.take_add, e1]
      have e5 : buf.length + min k' b.data.length + (t - k') = buf.length + t := by omega
      rw [e1, e2, e3, e4, e5]

theorem rangeOf_chunk (obj : List Byte) (o : Nat) :
    rangeOf obj (o : Int) ((o : Int) + CHUNK_SIZE - 1) = (obj.drop o).take CHUNK_SIZE.toNat := by
  unfold rangeOf
  have e1 : (o : Int).toNat = o := by omega
  have e2 : ((o : Int) + CHUNK_SIZE - 1 + 1 - (o : Int)).toNat = CHUNK_SIZE.toNat := by
    have : (o : Int) + CHUNK_SIZE - 1 + 1 - (o : Int) = CHUNK_SIZE := by omega
    rw [this]
  rw [e1, e2]

theorem fetchChunk_faithful (st : Store) (obj : List Byte) (f : S3File) (net : Net)
    (hst : Faithful st obj) (hS : (obj.length : Int) + CHUNK_SIZE ≤ maxInt64)
    (hf : chunkOk obj f) (hoff : f.offset < f.size) :
    ∃ (o : Nat) (burst id : Nat), f.offset = o ∧ 1 ≤ burst ∧
      fetchChunk st f net f.offset =
        ({ f with chunk := { offset := o, end_ := ((o + CHUNK_SIZE.toNat : Nat) : Int),
                             body := some { id := id, data := (obj.drop o).take CHUNK_SIZE.toNat,
                                            burst := burst, closed := false,
                                            closes := 0 } } },
          (fetchChunk st f net f.offset).2.1, some none) := by
  obtain ⟨hsz, ho0, _, hcl, _⟩ := hf
  obtain ⟨o, ho⟩ := Int.eq_ofNat_of_zero_le ho0
  obtain ⟨cl, bk, k, sz, off, md, ⟨co, ce, body⟩⟩ := f
  simp only at hcl hoff hsz ho
  subst hcl
  subst ho
  have hC : CHUNK_SIZE = 1073741824 := by decide
  have hCn : CHUNK_SIZE.toNat = 1073741824 := by decide
  have hM : maxInt64 = 9223372036854775807 := rfl
  rw [hM] at hS
  have hadd : add64 (o : Int) CHUNK_SIZE = ((o + CHUNK_SIZE.toNat : Nat) : Int) := by
    unfold add64
    rw [wrap64_lit] <;> omega
  have hsub : sub64 ((o + CHUNK_SIZE.toNat : Nat) : Int) 1 = (o : Int) + CHUNK_SIZE - 1 := by
    unfold sub64
    rw [wrap64_lit] <;> omega
  have hrange := rangeOf_chunk obj o
  cases body with
  | none =>
    obtain ⟨burst, hb1, hget⟩ :=
      hst.2 net.calls (o : Int) ((o : Int) + CHUNK_SIZE - 1) (by omega) (by omega) (by omega)
    refine ⟨o, burst, net.calls, rfl, hb1, ?_⟩
    simp only [fetchChunk, if_true, hadd, hsub, hget, hrange]
  | some b =>
    obtain ⟨burst, hb1, hget⟩ :=
      hst.2 (bodyClose b net).2.calls (o : Int) ((o : Int) + CHUNK_SIZE - 1) (by omega) (by omega)
        (by omega)
    refine ⟨o, burst, (bodyClose b net).2.calls, rfl, hb1, ?_⟩
    simp only [fetchChunk, if_true, hadd, hsub, hget, hrange]

theorem clampLen_eq (obj : List Byte) (f : S3File) (lenP : Nat) (hf : chunkOk obj f)
    (hS : (obj.length : Int) + lenP ≤ maxInt64) :
    clampLen f lenP = ((min lenP (obj.length - f.offset.toNat) : Nat) : Int) := by
  obtain ⟨hsz, ho0, ho1, _, _⟩ := hf
  have hM : maxInt64 = 9223372036854775807 := rfl
  rw [hM] at hS
  unfold clampLen
  have h1 : add64 f.offset lenP = f.offset + lenP := by
    unfold add64
    rw [wrap64_lit] <;> omega
  have h2 : sub64 f.size f.offset = f.size - f.offset := by
    unfold sub64
    rw [wrap64_lit] <;> omega
  rw [h1, h2]
  split_ifs <;> omega

theorem add64_nat (c k : Nat) (h : (c : Int) + k ≤ maxInt64) :
    add64 (c : Int) (k : Int) = ((c + k : Nat) : Int) := by
  unfold maxInt64 at h
  unfold add64
  rw [wrap64_lit] <;> omega

theorem advance_bounds (c e n l k : Nat) (hce : c ≤ e) (hcn : c ≤ n)
    (hlen : l = min (e - c) (n - c)) (hkl : k ≤ l) :
    c + k ≤ e ∧ c + k ≤ n := by
  omega

/-- The drain loop keeps the handle in agreement with the object, at every
iteration and however it ends. -/
theorem drain_chunkOk (obj : List Byte) (lenP : Nat) (hS : (obj.length : Int) ≤ maxInt64) :
    ∀ (fuel : Nat) (f : S3File) (toRead : Int) (buf : List Byte),
      chunkOk obj f → (f.chunk.body ≠ none → f.offset = f.chunk.offset) →
      chunkOk obj (drain lenP fuel f toRead buf).1 := by
  intro fuel
  induction fuel with
  | zero =>
    intro f toRead buf hf _
    unfold drain
    split <;> exact hf
  | succ fuel ih =>
    intro f toRead buf hf hsame
    unfold drain
    split
    · obtain ⟨cl, bk, key, sz, off, md, ⟨co, ce, body⟩⟩ := f
      cases body with
      | none => exact hf
      | some b =>
        have hsame' : off = co := hsame (by simp)
        subst hsame'
        obtain ⟨hsz, ho0, ho1, hcl, hopen, hburst, c, e, hc, he, hce, hcS, heS, hdata⟩ := hf
        simp only at hsz ho0 ho1 hcl hc he
        subst hc
        subst he
        subst hsz
        simp only [bodyRead_eq b _ hopen]
        have hno : ¬ ((if b.data.isEmpty = true then some Err.EOF else none) ≠ none ∧
            (if b.data.isEmpty = true then some Err.EOF else none) ≠ some Err.EOF) := by
          by_cases hemp : b.data.isEmpty = true <;> simp [hemp]
        rw [if_neg hno]
        simp only [List.length_take]
        have hlen : b.data.length = min (e - c) (obj.length - c) := by
          rw [hdata, List.length_take, List.length_drop]
        generalize hk : min (min (lenP - buf.length) (min b.burst b.data.length)) b.data.length = k
        have hkl : k ≤ b.data.length := by omega
        have hw : add64 (c : Int) (k : Int) = ((c + k : Nat) : Int) := by
          have hb := advance_bounds c e obj.length b.data.length k hce hcS hlen hkl
          have h2 : ((c + k : Nat) : Int) ≤ (obj.length : Int) := Int.ofNat_le.mpr hb.2
          apply add64_nat
          rw [← Nat.cast_add]
          exact le_trans h2 hS
        rw [hw]
        apply ih
        · have hb := advance_bounds c e obj.length b.data.length k hce hcS hlen hkl
          refine ⟨rfl, Int.ofNat_nonneg _, Int.ofNat_le.mpr hb.2, hcl, hopen, hburst, c + k, e,
            rfl, rfl, hb.1, hb.2, heS, ?_⟩
          simp only
          have hk' : min (lenP - buf.length) (min b.burst b.data.length) = k := by omega
          rw [hk', hdata, List.drop_take, List.drop_drop, Nat.sub_sub]
        · intro _
          rfl
    · exact hf

theorem CHUNK_SIZE_toNat : (CHUNK_SIZE.toNat : Int) = CHUNK_SIZE := by decide

theorem Read_chunkOk (st : Store) (obj : List Byte) (fuel : Nat) (f : S3File) (net : Net)
    (lenP : Nat) (hst : Faithful st obj) (hS : (obj.length : Int) + CHUNK_SIZE ≤ maxInt64)
    (hf : chunkOk obj f) : chunkOk obj (Read st fuel f net lenP).file := by
  have hC0 : 0 ≤ CHUNK_SIZE := by decide
  have hCn := CHUNK_SIZE_toNat
  have hS' : (obj.length : Int) ≤ maxInt64 := by omega
  unfold Read
  split
  · exact hf
  · rename_i hlt
    simp only
    split
    · obtain ⟨o, burst, id, ho, hb1, hfc⟩ :=
        fetchChunk_faithful st obj f net hst hS hf (by omega)
      rw [hfc]
      simp only
      apply drain_chunkOk obj lenP hS'
      · obtain ⟨hsz, ho0, ho1, hcl, _⟩ := hf
        refine ⟨hsz, ho0, ho1, hcl, rfl, hb1, o, o + CHUNK_SIZE.toNat, rfl, rfl,
          Nat.le_add_right _ _, ?_, ?_, ?_⟩
        · omega
        · push_cast
          omega
        · simp only [Nat.add_sub_cancel_left]
      · intro _
        exact ho
    · rename_i hcond
      apply drain_chunkOk obj lenP hS' _ _ _ _ hf
      intro _
      by_contra hne
      exact hcond (Or.inl hne)

theorem Seek_chunkOk (obj : List Byte) (f : S3File) (o w : Int) (hf : chunkOk obj f) :
    chunkOk obj (Seek f o w).1 := by
  obtain ⟨hsz, ho0, ho1, hcl, hch⟩ := hf
  unfold Seek seekTo
  split_ifs <;> first
    | exact ⟨hsz, ho0, ho1, hcl, hch⟩
    | exact ⟨hsz, by simp only; omega, by simp only; omega, hcl, hch⟩

theorem NewS3File_chunkOk (st : Store) (obj : List Byte) (bucket key : List Char) (f : S3File)
    (hst : Faithful st obj) (hnew : NewS3File st bucket key = Except.ok f) : chunkOk obj f := by
  obtain ⟨mod, hhead⟩ := hst.1
  unfold NewS3File at hnew
  simp only [hhead, Except.ok.injEq] at hnew
  subst hnew
  exact ⟨rfl, le_refl _, Int.ofNat_nonneg _, rfl, rfl, rfl⟩

theorem run_chunkOk (st : Store) (obj : List Byte) (hst : Faithful st obj)
    (hS : (obj.length : Int) + CHUNK_SIZE ≤ maxInt64) (ops : List Op) :
    ∀ s : S3File × Net, Op.close ∉ ops → chunkOk obj s.1 → chunkOk obj (run st s ops).1 := by
  induction ops with
  | nil => intro s _ h; exact h
  | cons op ops ih =>
    intro s hops h
    have h1 : Op.close ∉ ops := fun hm => hops (List.mem_cons_of_mem _ hm)
    apply ih _ h1
    cases op with
    | read lenP fuel => exact Read_chunkOk st obj fuel s.1 s.2 lenP hst hS h
    | seek o w => exact Seek_chunkOk obj s.1 o w h
    | close => exact absurd (List.mem_cons_self _ _) hops

theorem reuse_arith (B n c e l t : Nat) (hce : c ≤ e) (hcn : c ≤ n)
    (hlen : l = min (e - c) (n - c)) (ht : min B (n - c) = t) (hin : c + t ≤ e) :
    min B l = t ∧ min t (e - c) = t := by
  omega

theorem cast_not_gt (a b : Nat) (h : ¬ ((a : Int) > (b : Int))) : a ≤ b := by
  omega

theorem cast_pos_absurd (t : Nat) (ht : 1 ≤ t) (h : ¬ ((t : Int) > 0)) : False := by
  omega

/-- Over a faithful store, a `Read` with a buffer of `1 ≤ B ≤ CHUNK_SIZE` bytes
at an offset short of the size returns within `B` loop iterations, with the
next `min B (size - offset)` bytes of the object, and advances the offset by
as much. -/
theorem Read_exact (st : Store) (obj : List Byte) (fuel : Nat) (f : S3File) (net : Net)
    (B : Nat) (hst : Faithful st obj) (hS : (obj.length : Int) + CHUNK_SIZE ≤ maxInt64)
    (hf : chunkOk obj f) (hoff : f.offset < f.size) (hB1 : 1 ≤ B) (hB : (B : Int) ≤ CHUNK_SIZE)
    (hfuel : B ≤ fuel) :
    (Read st fuel f net B).out = Outcome.ret (min B (obj.length - f.offset.toNat)) none ∧
    (Read st fuel f net B).data
      = (obj.drop f.offset.toNat).take (min B (obj.length - f.offset.toNat)) ∧
    (Read st fuel f net B).file.offset
      = f.offset + ((min B (obj.length - f.offset.toNat) : Nat) : Int) := by
  have hC0 : 0 ≤ CHUNK_SIZE := by decide
  have hCn := CHUNK_SIZE_toNat
  have hM : maxInt64 = 9223372036854775807 := rfl
  have hclamp := clampLen_eq obj f B hf (by omega)
  generalize ht : min B (obj.length - f.offset.toNat) = t at hclamp
  have hfull := hf
  obtain ⟨hsz, ho0, ho1, hcl, hch⟩ := hf
  have ht1 : 1 ≤ t := by omega
  have htB : t ≤ B := by omega
  have htS : f.offset + (t : Int) ≤ obj.length := by omega
  unfold Read
  have h1 : ¬ f.offset ≥ f.size := by omega
  rw [if_neg h1]
  simp only [hclamp]
  split
  · obtain ⟨o, burst, id, ho, hb1, hfc⟩ :=
      fetchChunk_faithful st obj f net hst hS hfull hoff
    rw [hfc]
    simp only
    rw [drain_exact B fuel t _ [] _ rfl rfl hb1 (by omega)
      (by simp only [List.length_nil, List.length_take, List.length_drop]; omega)
      (by simp only; omega) (by simp only; omega) (by simp only; omega) (by simp only; omega)]
    simp only [List.length_nil, Nat.zero_add, List.nil_append, List.take_take, true_and]
    have e1 : f.offset.toNat = o := by omega
    have e2 : min t CHUNK_SIZE.toNat = t := by omega
    rw [e1, e2]
    exact ⟨rfl, trivial⟩
  · rename_i hcond
    have hsame : f.offset = f.chunk.offset := by
      by_contra hne
      exact hcond (Or.inl hne)
    have hin : ¬ add64 f.offset (t : Int) > f.chunk.end_ := fun hgt => hcond (Or.inr hgt)
    have hmax : f.offset + (t : Int) ≤ maxInt64 := le_trans htS (by omega)
    obtain ⟨cl, bk, key, sz, off, md, ⟨co, ce, body⟩⟩ := f
    simp only at hsame hin hsz ho0 ho1 htS ht hoff hmax
    subst hsame
    cases body with
    | none =>
      exfalso
      simp only at hch
      obtain ⟨hz0, hz1⟩ := hch
      subst hz0
      subst hz1
      have hw := add64_nat 0 t (by simpa using hmax)
      simp only [Nat.cast_zero, Nat.zero_add] at hw
      rw [hw] at hin
      exact cast_pos_absurd t ht1 hin
    | some b =>
      obtain ⟨hopen, hburst, c, e, hc, he, hce, hcS, heS, hdata⟩ := hch
      simp only at hc he
      subst hc
      subst he
      have hlen : b.data.length = min (e - c) (obj.length - c) := by
        rw [hdata, List.length_take, List.length_drop]
      rw [add64_nat c t hmax] at hin
      rw [Int.toNat_ofNat] at ht
      have har := reuse_arith B obj.length c e b.data.length t hce hcS hlen ht
        (cast_not_gt (c + t) e hin)
      rw [drain_exact B fuel t _ [] b rfl hopen hburst (le_trans htB hfuel)
        (by simp only [List.length_nil, Nat.sub_zero]; exact har.1)
        (Int.ofNat_nonneg c) hmax (Int.ofNat_nonneg c) hmax]
      simp only [List.length_nil, Nat.zero_add, List.nil_append, true_and]
      rw [hdata, List.take_take, Int.toNat_ofNat, har.2]
      exact ⟨rfl, trivial⟩

theorem remaining_step (n o t outer B : Nat) (ht : t = min B (n - o)) (hB : 1 ≤ B) (hlt : o < n)
    (hout : n - o + 1 ≤ outer + 1) : n - (o + t) + 1 ≤ outer := by
  omega

/-- Over a faithful store, reading to the end with a buffer of `1 ≤ B ≤
CHUNK_SIZE` bytes terminates and yields the object from the offset on. -/
theorem readAll_suffix (st : Store) (obj : List Byte) (B inner : Nat) (hst : Faithful st obj)
    (hS : (obj.length : Int) + CHUNK_SIZE ≤ maxInt64) (hB1 : 1 ≤ B)
    (hB : (B : Int) ≤ CHUNK_SIZE) (hinner : B ≤ inner) :
    ∀ (outer : Nat) (f : S3File) (net : Net) (acc : List Byte),
      chunkOk obj f → obj.length - f.offset.toNat + 1 ≤ outer →
      readAll st B inner outer f net acc = some (acc ++ obj.drop f.offset.toNat) := by
  intro outer
  induction outer with
  | zero =>
    intro f net acc _ h
    exact absurd h (by simp)
  | succ outer ih =>
    intro f net acc hf hout
    unfold readAll
    by_cases hend : f.offset ≥ f.size
    · have hdrop : obj.drop f.offset.toNat = [] := by
        apply List.drop_eq_nil_of_le
        have := hf.1
        omega
      simp only [Read, hend, if_true, hdrop]
    · have hlt : f.offset < f.size := not_le.mp hend
      obtain ⟨hout1, hdata, hoffs⟩ := Read_exact st obj inner f net B hst hS hf hlt hB1 hB hinner
      have hinv := Read_chunkOk st obj inner f net B hst hS hf
      obtain ⟨o, ho⟩ := Int.eq_ofNat_of_zero_le hf.2.1
      have hon : o < obj.length := by
        have := hf.1
        omega
      simp only [ho, Int.toNat_ofNat] at hout1 hdata hoffs hout ⊢
      generalize ht : min B (obj.length - o) = t at hout1 hdata hoffs
      simp only [hout1]
      have hto : (Read st inner f net B).file.offset.toNat = o + t := by
        rw [hoffs]
        omega
      rw [ih _ _ _ hinv (by rw [hto]; exact remaining_step _ o t outer B ht.symm hB1 hon hout),
        hto, hdata, List.append_assoc]
      congr 2
      rw [← List.drop_drop, List.take_append_drop]

theorem rangeStore_faithful (obj : List Byte) (burst mod : Nat) (hb : 1 ≤ burst) :
    Faithful (rangeStore obj burst mod) obj :=
  ⟨⟨mod, rfl⟩, fun _ _ _ _ _ _ => ⟨burst, hb, rfl⟩⟩

theorem Seek_start_in_range (f : S3File) (k : Nat) (hk : (k : Int) ≤ f.size) :
    Seek f k SeekStart = ({ f with offset := k }, (k : Int), none) := by
  have h : ¬ ((k : Int) < 0 ∨ (k : Int) > f.size) := by omega
  simp only [Seek, seekTo, if_true, if_neg h]

/-- C2: over a faithful store holding `obj` (of a length for which a chunk's
end does not overflow `int64`), on any handle reached from `NewS3File` by
`Read` and `Seek` calls, `Seek(k, io.SeekStart)` with `0 ≤ k ≤ len obj`
succeeds, and reading from there with a buffer of `1 ≤ B ≤ CHUNK_SIZE` bytes
until `io.EOF` terminates (every `Read` within `B` loop iterations, the whole
within `len obj - k + 1` calls) and returns exactly the bytes `[k, len obj)`;
when `k = len obj` the next `Read` returns `(0, io.EOF)` and leaves handle
and ledger untouched, so no request is issued. -/
theorem Seek_then_Read_suffix (st : Store) (obj : List Byte) (bucket key : List Char)
    (f : S3File) (ops : List Op) (k B inner outer fuel : Nat)
    (hst : Faithful st obj) (hS : (obj.length : Int) + CHUNK_SIZE ≤ maxInt64)
    (hnew : NewS3File st bucket key = Except.ok f) (hops : Op.close ∉ ops)
    (hk : k ≤ obj.length) (hB1 : 1 ≤ B) (hB : (B : Int) ≤ CHUNK_SIZE)
    (hinner : B ≤ inner) (houter : obj.length - k + 1 ≤ outer) :
    (Seek (run st (f, net0) ops).1 k SeekStart).2 = ((k : Int), none) ∧
    readAll st B inner outer (Seek (run st (f, net0) ops).1 k SeekStart).1
        (run st (f, net0) ops).2 [] = some (obj.drop k) ∧
    (k = obj.length →
      Read st fuel (Seek (run st (f, net0) ops).1 k SeekStart).1 (run st (f, net0) ops).2 B
        = { file := (Seek (run st (f, net0) ops).1 k SeekStart).1,
            net := (run st (f, net0) ops).2, data := [],
            out := Outcome.ret 0 (some Err.EOF) }) := by
  have hinv := run_chunkOk st obj hst hS ops (f, net0) hops
    (NewS3File_chunkOk st obj bucket key f hst hnew)
  have hsize : (run st (f, net0) ops).1.size = obj.length := hinv.1
  have hseek := Seek_start_in_range (run st (f, net0) ops).1 k
    (by rw [hsize]; exact Int.ofNat_le.mpr hk)
  have hinv2 := Seek_chunkOk obj (run st (f, net0) ops).1 k SeekStart hinv
  rw [hseek] at hinv2 ⊢
  refine ⟨rfl, ?_, ?_⟩
  · have h := readAll_suffix st obj B inner hst hS hB1 hB hinner outer _
      (run st (f, net0) ops).2 [] hinv2 (by simpa using houter)
    simpa using h
  · intro hkS
    have hge : (k : Int) ≥ (run st (f, net0) ops).1.size := by
      rw [hsize, hkS]
    simp only [Read, hge, if_true]

theorem Seek_then_Read_suffix_witness :
    readAll (rangeStore obj10 3 0) 4 4 8
        (Seek (run (rangeStore obj10 3 0) (file10, net0) [Op.read 4 5]).1 3 SeekStart).1
        (run (rangeStore obj10 3 0) (file10, net0) [Op.read 4 5]).2 []
      = some [3, 4, 5, 6, 7, 8, 9] ∧
    (Read (rangeStore obj10 3 0) 0
        (Seek (run (rangeStore obj10 3 0) (file10, net0) [Op.read 4 5]).1 10 SeekStart).1
        (run (rangeStore obj10 3 0) (file10, net0) [Op.read 4 5]).2 4).out
      = Outcome.ret 0 (some Err.EOF) :=
  ⟨(Seek_then_Read_suffix (rangeStore obj10 3 0) obj10 [] [] file10 [Op.read 4 5] 3 4 4 8 0
      (rangeStore_faithful obj10 3 0 (by decide)) (by decide) rfl (by decide) (by decide)
      (by decide) (by decide) (by decide) (by decide)).2.1,
    congrArg ReadResult.out
      ((Seek_then_Read_suffix (rangeStore obj10 3 0) obj10 [] [] file10 [Op.read 4 5] 10 4 4 1 0
        (rangeStore_faithful obj10 3 0 (by decide)) (by decide) rfl (by decide) (by decide)
        (by decide) (by decide) (by decide) (by decide)).2.2 rfl)⟩

/-! ## The library functions on sample inputs -/

/-- The model `Clean` on the table of cases the library tests `path.Clean` on. -/
theorem Clean_library_table :
    Clean "".toList = ".".toList ∧
    Clean "abc".toList = "abc".toList ∧
    Clean "abc/def".toList = "abc/def".toList ∧
    Clean "a/b/c".toList = "a/b/c".toList ∧
    Clean ".".toList = ".".toList ∧
    Clean "..".toList = "..".toList ∧
    Clean "../..".toList = "../..".toList ∧
    Clean "../../abc".toList = "../../abc".toList ∧
    Clean "/abc".toList = "/abc".toList ∧
    Clean "/".toList = "/".toList ∧
    Clean "abc/".toList = "abc".toList ∧
    Clean "abc/def/".toList = "abc/def".toList ∧
    Clean "a/b/c/".toList = "a/b/c".toList ∧
    Clean "./".toList = ".".toList ∧
    Clean "../".toList = "..".toList ∧
    Clean "../../".toList = "../..".toList ∧
    Clean "/abc/".toList = "/abc".toList ∧
    Clean "abc//def//ghi".toList = "abc/def/ghi".toList ∧
    Clean "//abc".toList = "/abc".toList ∧
    Clean "///abc".toList = "/abc".toList ∧
    Clean "//abc//".toList = "/abc".toList ∧
    Clean "abc//".toList = "abc".toList ∧
    Clean "abc/./def".toList = "abc/def".toList ∧
    Clean "/./abc/def".toList = "/abc/def".toList ∧
    Clean "abc/.".toList = "abc".toList ∧
    Clean "abc/def/ghi/../jkl".toList = "abc/def/jkl".toList ∧
    Clean "abc/def/../ghi/../jkl".toList = "abc/jkl".toList ∧
    Clean "abc/def/..".toList = "abc".toList ∧
    Clean "abc/def/../..".toList = ".".toList ∧
    Clean "/abc/def/../..".toList = "/".toList ∧
    Clean "abc/def/../../..".toList = "..".toList ∧
    Clean "/abc/def/../../..".toList = "/".toList ∧
    Clean "abc/def/../../../ghi/jkl/../../../mno".toList = "../../mno".toList ∧
    Clean "abc/./../def".toList = "def".toList ∧
    Clean "abc//./../def".toList = "def".toList ∧
    Clean "abc/../../././../def".toList = "../../def".toList := by
  decide

/-- The models `splitSlash` and `Join` on the cases the library documents for
`strings.Split` and `path.Join`. -/
theorem Split_Join_library_table :
    splitSlash "a//b/".toList = ["a".toList, [], "b".toList, []] ∧
    splitSlash "".toList = [[]] ∧
    splitSlash "m/dir/a.txt".toList = ["m".toList, "dir".toList, "a.txt".toList] ∧
    Join ["a".toList, "b".toList] = "a/b".toList ∧
    Join [[], "a".toList] = "a".toList ∧
    Join ["a".toList, []] = "a".toList ∧
    Join ["a/b".toList, "../c".toList] = "a/c".toList ∧
    Join [[], []] = [] ∧
    Join [] = [] := by
  decide

/-! ## Path cleaning on normal elements -/

theorem cleanLoop_copy (rooted : Bool) (x : Str) (dd : Nat) :
    ∀ (s o : Str), '/' ∉ s →
      cleanLoop rooted (s ++ '/' :: x) true o dd = cleanLoop rooted x false (o ++ s) dd := by
  intro s
  induction s with
  | nil =>
    intro o _
    simp [cleanLoop]
  | cons a s ih =>
    intro o hs
    have ha : a ≠ '/' := fun h => hs (by simp [h])
    have hs' : '/' ∉ s := fun h => hs (List.mem_cons_of_mem _ h)
    simp only [List.cons_append, cleanLoop, ha, if_false]
    rw [ih _ hs']
    simp

theorem cleanLoop_copy_end (rooted : Bool) (dd : Nat) :
    ∀ (s o : Str), '/' ∉ s → cleanLoop rooted s true o dd = o ++ s := by
  intro s
  induction s with
  | nil =>
    intro o _
    simp [cleanLoop]
  | cons a s ih =>
    intro o hs
    have ha : a ≠ '/' := fun h => hs (by simp [h])
    have hs' : '/' ∉ s := fun h => hs (List.mem_cons_of_mem _ h)
    simp only [cleanLoop, ha, if_false]
    rw [ih _ hs']
    simp

theorem cleanLoop_seg (rooted : Bool) (x : Str) (dd : Nat) (s out : Str) (hs : goodSeg s) :
    cleanLoop rooted (s ++ '/' :: x) false out dd
      = cleanLoop rooted x false (startElem rooted out ++ s) dd := by
  obtain ⟨hne, hdot, hdd, hsl⟩ := hs
  cases s with
  | nil => exact absurd rfl hne
  | cons c s1 =>
    have hc : c ≠ '/' := fun h => hsl (by simp [h])
    have hs1 : '/' ∉ s1 := fun h => hsl (List.mem_cons_of_mem _ h)
    cases s1 with
    | nil =>
      have hc2 : c ≠ '.' := fun h => hdot (by rw [h])
      simp only [List.cons_append, List.nil_append, cleanLoop, hc, hc2, if_false, false_and]
      simp
    | cons d s2 =>
      have hd : d ≠ '/' := fun h => hs1 (by simp [h])
      have hs2 : '/' ∉ s2 := fun h => hs1 (List.mem_cons_of_mem _ h)
      have h3 : ∀ rest : Str, rest = s2 ++ '/' :: x →
          ¬ (c = '.' ∧ d = '.' ∧ (rest = [] ∨ rest.head? = some '/')) := by
        rintro rest hrest ⟨h1, h2, h4⟩
        subst hrest
        cases s2 with
        | nil => exact hdd (by rw [h1, h2])
        | cons e s3 =>
          have he : e ≠ '/' := fun h => hs2 (by simp [h])
          rcases h4 with h4 | h4
          · simp at h4
          · simp at h4
            exact he h4
      have h2 : ¬ (c = '.' ∧ d = '/') := fun h => hd h.2
      show cleanLoop rooted (c :: d :: (s2 ++ '/' :: x)) false out dd = _
      generalize hr : s2 ++ '/' :: x = rest
      simp only [cleanLoop, hc, h2, h3 rest hr.symm, hd, if_false]
      rw [← hr, cleanLoop_copy rooted x dd s2 _ hs2]
      simp

theorem cleanLoop_seg_end (rooted : Bool) (dd : Nat) (s out : Str) (hs : goodSeg s) :
    cleanLoop rooted s false out dd = startElem rooted out ++ s := by
  obtain ⟨hne, hdot, hdd, hsl⟩ := hs
  cases s with
  | nil => exact absurd rfl hne
  | cons c s1 =>
    have hc : c ≠ '/' := fun h => hsl (by simp [h])
    have hs1 : '/' ∉ s1 := fun h => hsl (List.mem_cons_of_mem _ h)
    cases s1 with
    | nil =>
      have hc2 : c ≠ '.' := fun h => hdot (by rw [h])
      simp only [cleanLoop, hc, hc2, if_false]
    | cons d s2 =>
      have hd : d ≠ '/' := fun h => hs1 (by simp [h])
      have hs2 : '/' ∉ s2 := fun h => hs1 (List.mem_cons_of_mem _ h)
      have h3 : ¬ (c = '.' ∧ d = '.' ∧ (s2 = [] ∨ s2.head? = some '/')) := by
        rintro ⟨h1, h2, h4⟩
        cases s2 with
        | nil => exact hdd (by rw [h1, h2])
        | cons e s3 =>
          have he : e ≠ '/' := fun h => hs2 (by simp [h])
          rcases h4 with h4 | h4
          · simp at h4
          · simp at h4
            exact he h4
      have h2 : ¬ (c = '.' ∧ d = '/') := fun h => hd h.2
      simp only [cleanLoop, hc, if_false, h2, h3, hd]
      rw [cleanLoop_copy_end rooted dd s2 _ hs2]
      simp

theorem startElem_push (rooted : Bool) (o : Str)
    (h : (rooted = true ∧ o.length ≠ 1) ∨ (rooted = false ∧ o.length ≠ 0)) :
    startElem rooted o = o ++ ['/'] := by
  unfold startElem
  rw [if_pos h]

theorem startElem_true_length (out : Str) : 1 ≤ (startElem true out).length := by
  unfold startElem
  by_cases h1 : out.length = 1
  · have : ¬ ((true = true ∧ out.length ≠ 1) ∨ (true = false ∧ out.length ≠ 0)) := by
      simp [h1]
    rw [if_neg this]
    omega
  · have : (true = true ∧ out.length ≠ 1) ∨ (true = false ∧ out.length ≠ 0) :=
      Or.inl ⟨rfl, h1⟩
    rw [if_pos this, List.length_append, List.length_singleton]
    omega

theorem startElem_after (rooted : Bool) (out s : Str) (hs : s ≠ []) :
    startElem rooted (startElem rooted out ++ s) = startElem rooted out ++ s ++ ['/'] := by
  have hlen : 1 ≤ s.length := by
    cases s with
    | nil => exact absurd rfl hs
    | cons a l => simp
  apply startElem_push
  cases rooted with
  | false =>
    right
    refine ⟨rfl, ?_⟩
    rw [List.length_append]
    omega
  | true =>
    left
    refine ⟨rfl, ?_⟩
    have := startElem_true_length out
    rw [List.length_append]
    omega

theorem cleanLoop_segs (rooted : Bool) (dd : Nat) :
    ∀ (r : List Str) (s out : Str), goodSeg s → (∀ x ∈ r, goodSeg x) →
      cleanLoop rooted (joinSlash (s :: r)) false out dd
        = startElem rooted out ++ joinSlash (s :: r) := by
  intro r
  induction r with
  | nil =>
    intro s out hs _
    exact cleanLoop_seg_end rooted dd s out hs
  | cons s2 r ih =>
    intro s out hs hr
    have h2 : goodSeg s2 := hr s2 (List.mem_cons_self _ _)
    have hr' : ∀ x ∈ r, goodSeg x := fun x hx => hr x (List.mem_cons_of_mem _ hx)
    show cleanLoop rooted (s ++ '/' :: joinSlash (s2 :: r)) false out dd
      = startElem rooted out ++ (s ++ '/' :: joinSlash (s2 :: r))
    rw [cleanLoop_seg rooted _ dd s out hs, ih s2 _ h2 hr', startElem_after rooted out s hs.1]
    simp

/-! ## Splitting and joining -/

theorem splitSlash_ne_nil (s : Str) : splitSlash s ≠ [] := by
  cases s with
  | nil => simp [splitSlash]
  | cons c t =>
    unfold splitSlash
    split_ifs
    · simp
    · split <;> simp

theorem joinSlash_cons_cons (c : Char) (a : Str) (r : List Str) :
    joinSlash ((c :: a) :: r) = c :: joinSlash (a :: r) := by
  cases r <;> simp [joinSlash]

theorem joinSlash_splitSlash (s : Str) : joinSlash (splitSlash s) = s := by
  induction s with
  | nil => simp [splitSlash, joinSlash]
  | cons c t ih =>
    unfold splitSlash
    cases hsp : splitSlash t with
    | nil => exact absurd hsp (splitSlash_ne_nil t)
    | cons a r =>
      rw [hsp] at ih
      by_cases hc : c = '/'
      · simp only [hc, if_true]
        show [] ++ '/' :: joinSlash (a :: r) = '/' :: t
        rw [ih]
        rfl
      · simp only [hc, if_false]
        rw [joinSlash_cons_cons, ih]

theorem splitSlash_seg (x : Str) :
    ∀ s : Str, '/' ∉ s → splitSlash (s ++ '/' :: x) = s :: splitSlash x := by
  intro s
  induction s with
  | nil =>
    intro _
    simp [splitSlash]
  | cons a s ih =>
    intro hs
    have ha : a ≠ '/' := fun h => hs (by simp [h])
    have hs' : '/' ∉ s := fun h => hs (List.mem_cons_of_mem _ h)
    show splitSlash (a :: (s ++ '/' :: x)) = (a :: s) :: splitSlash x
    rw [splitSlash, if_neg ha, ih hs']

theorem splitSlash_seg_end : ∀ s : Str, '/' ∉ s → splitSlash s = [s] := by
  intro s
  induction s with
  | nil =>
    intro _
    simp [splitSlash]
  | cons a s ih =>
    intro hs
    have ha : a ≠ '/' := fun h => hs (by simp [h])
    have hs' : '/' ∉ s := fun h => hs (List.mem_cons_of_mem _ h)
    rw [splitSlash, if_neg ha, ih hs']

theorem splitSlash_joinSlash :
    ∀ (r : List Str) (s : Str), '/' ∉ s → (∀ x ∈ r, '/' ∉ x) →
      splitSlash (joinSlash (s :: r)) = s :: r := by
  intro r
  induction r with
  | nil =>
    intro s hs _
    exact splitSlash_seg_end s hs
  | cons s2 r ih =>
    intro s hs hr
    show splitSlash (s ++ '/' :: joinSlash (s2 :: r)) = s :: s2 :: r
    rw [splitSlash_seg _ s hs, ih s2 (hr s2 (List.mem_cons_self _ _))
      (fun x hx => hr x (List.mem_cons_of_mem _ hx))]

/-! ## Clean on normal paths -/

theorem Clean_ne_nil (p : Str) : Clean p ≠ [] := by
  unfold Clean
  cases p with
  | nil => simp
  | cons c rest =>
    simp only
    split_ifs with h1 h2 h3
    · simp
    · intro h
      rw [h] at h2
      exact h2 rfl
    · simp
    · intro h
      rw [h] at h3
      exact h3 rfl

theorem Clean_rooted_segs (s : Str) (r : List Str) (hs : goodSeg s) (hr : ∀ x ∈ r, goodSeg x) :
    Clean ('/' :: joinSlash (s :: r)) = '/' :: joinSlash (s :: r) := by
  unfold Clean
  simp only [if_true]
  rw [cleanLoop_segs true 1 r s ['/'] hs hr]
  simp [startElem]

theorem Clean_segs (s : Str) (r : List Str) (hs : goodSeg s) (hr : ∀ x ∈ r, goodSeg x) :
    Clean (joinSlash (s :: r)) = joinSlash (s :: r) := by
  have hcl := cleanLoop_segs false 0 r s [] hs hr
  obtain ⟨hne, _, _, hsl⟩ := hs
  cases s with
  | nil => exact absurd rfl hne
  | cons c s1 =>
    have hc : c ≠ '/' := fun h => hsl (by simp [h])
    rw [joinSlash_cons_cons] at hcl ⊢
    unfold Clean
    simp only [hc, if_false]
    rw [hcl]
    simp [startElem]

theorem Clean_trailing_slash (m : Str) (hm : goodSeg m) :
    Clean ('/' :: (m ++ ['/'])) = '/' :: m := by
  unfold Clean
  simp only [if_true]
  rw [cleanLoop_seg true [] 1 m ['/'] hm]
  simp [cleanLoop, startElem]

/-! ## Open -/

theorem Open_of_clean (fs : S3Fs) (p : Str) (c : Char) (mount : Str) (more : List Str)
    (hclean : Clean p = c :: joinSlash (mount :: more)) (hm : '/' ∉ mount)
    (hmore : ∀ x ∈ more, '/' ∉ x) :
    Open fs p =
      match List.lookup mount fs.buckets with
      | none => Dispatch.notExist
      | some bucket =>
        if (if (mount :: more).length > 1 then '/' :: Join more else []) = [] then
          Dispatch.getListing bucket mount
        else
          Dispatch.getObject bucket
            (if (mount :: more).length > 1 then '/' :: Join more else []) := by
  unfold Open
  rw [hclean]
  simp only
  rw [splitSlash_joinSlash more mount hm hmore]

/-- C6 (amended): when the mount name `m` is a single normal path element
bound to `bucket`, and `K` is a key in normal form, `Open("/" + m + "/" + K)`
ends in `getObject(bucket, "/" + K)`, the key being the remainder of the path
with its leading slash, while `Open("/" + m)` and `Open("/" + m + "/")` end in
`getListing(bucket, m)`. -/
theorem Open_mount_key (fs : S3Fs) (m K bucket : Str) (hm : goodSeg m) (hK : normalKey K)
    (hb : List.lookup m fs.buckets = some bucket) :
    Open fs ('/' :: (m ++ '/' :: K)) = Dispatch.getObject bucket ('/' :: K) ∧
    Open fs ('/' :: m) = Dispatch.getListing bucket m ∧
    Open fs ('/' :: (m ++ ['/'])) = Dispatch.getListing bucket m := by
  refine ⟨?_, ?_, ?_⟩
  · cases hsp : splitSlash K with
    | nil => exact absurd hsp (splitSlash_ne_nil K)
    | cons s r =>
      have hKj : joinSlash (s :: r) = K := by rw [← hsp, joinSlash_splitSlash]
      have hs : goodSeg s := hK s (by rw [hsp]; exact List.mem_cons_self _ _)
      have hr : ∀ x ∈ r, goodSeg x := fun x hx => hK x (by rw [hsp]; exact List.mem_cons_of_mem _ hx)
      have hall : ∀ x ∈ s :: r, goodSeg x := by
        intro x hx
        rcases List.mem_cons.mp hx with h | h
        · rw [h]; exact hs
        · exact hr x h
      have hpath : '/' :: (m ++ '/' :: K) = '/' :: joinSlash (m :: s :: r) := by
        rw [← hKj]
        rfl
      have hclean : Clean ('/' :: (m ++ '/' :: K)) = '/' :: joinSlash (m :: s :: r) := by
        rw [hpath]
        exact Clean_rooted_segs m (s :: r) hm hall
      rw [Open_of_clean fs _ '/' m (s :: r) hclean hm.2.2.2 (fun x hx => (hall x hx).2.2.2), hb]
      have hjoin : Join (s :: r) = K := by
        unfold Join
        rw [if_pos hs.1, Clean_segs s r hs hr, hKj]
      simp [hjoin]
  · have hclean : Clean ('/' :: m) = '/' :: joinSlash (m :: []) :=
      Clean_rooted_segs m [] hm (fun x hx => absurd hx (List.not_mem_nil x))
    rw [Open_of_clean fs _ '/' m [] hclean hm.2.2.2 (fun x hx => absurd hx (List.not_mem_nil x)),
      hb]
    simp
  · have hclean : Clean ('/' :: (m ++ ['/'])) = '/' :: joinSlash (m :: []) :=
      Clean_trailing_slash m hm
    rw [Open_of_clean fs _ '/' m [] hclean hm.2.2.2 (fun x hx => absurd hx (List.not_mem_nil x)),
      hb]
    simp

theorem Open_mount_key_witness :
    Open fsSample "/m/dir/a.txt".toList = Dispatch.getObject "b".toList "/dir/a.txt".toList ∧
    Open fsSample "/m".toList = Dispatch.getListing "b".toList "m".toList ∧
    Open fsSample "/m/".toList = Dispatch.getListing "b".toList "m".toList :=
  Open_mount_key fsSample "m".toList "dir/a.txt".toList "b".toList (by decide) (by decide)
    (by decide)

/-- C6 (as stated, refuted): for the key `a.txt` under mount `m`, `Open` hands
`getObject` the key `/a.txt`, not `a.txt`; and a mount whose name contains a
slash, though present in the table, is never reached by `"/" + m + "/" + K`. -/
theorem Open_key_keeps_leading_slash :
    ¬ (∀ (fs : S3Fs) (m K bucket : Str), List.lookup m fs.buckets = some bucket →
        K ≠ [] → normalKey K →
        Open fs ('/' :: (m ++ '/' :: K)) = Dispatch.getObject bucket K) ∧
    Open fsSample "/m/a.txt".toList = Dispatch.getObject "b".toList "/a.txt".toList ∧
    List.lookup "a/b".toList fsSample.buckets = some "c".toList ∧
    Open fsSample "/a/b/k".toList = Dispatch.notExist := by
  refine ⟨fun h => ?_, by decide, by decide, by decide⟩
  have h1 := h fsSample "m".toList "a.txt".toList "b".toList (by decide) (by decide) (by decide)
  revert h1
  decide

theorem openMount_some (p : Str) : ∃ mount, openMount p = some mount := by
  unfold openMount
  cases hc : Clean p with
  | nil => exact absurd hc (Clean_ne_nil p)
  | cons c tl =>
    cases hs : splitSlash tl with
    | nil => exact absurd hs (splitSlash_ne_nil tl)
    | cons mount more => exact ⟨mount, by simp [hs]⟩

theorem Open_by_mount (fs : S3Fs) (p mount : Str) (hm : openMount p = some mount) :
    Open fs p ≠ Dispatch.panic ∧
    (List.lookup mount fs.buckets = none → Open fs p = Dispatch.notExist) := by
  unfold openMount at hm
  unfold Open
  cases hc : Clean p with
  | nil => exact absurd hc (Clean_ne_nil p)
  | cons c tl =>
    cases hs : splitSlash tl with
    | nil => exact absurd hs (splitSlash_ne_nil tl)
    | cons mount1 more =>
      simp only [hc, hs, List.tail?_cons, Option.some_bind, List.head?_cons,
        Option.some.injEq] at hm
      subst hm
      simp only [hs]
      refine ⟨?_, ?_⟩
      · cases List.lookup mount1 fs.buckets with
        | none => exact fun h => Dispatch.noConfusion h
        | some bucket =>
          simp only
          split_ifs <;> exact fun h => Dispatch.noConfusion h
      · intro hnone
        rw [hnone]

theorem nodup_keys_unique (opts : List (Str × BucketOpts)) (k : Str) (v w : BucketOpts)
    (hnd : (opts.map Prod.fst).Nodup) (hv : (k, v) ∈ opts) (hw : (k, w) ∈ opts) : v = w := by
  induction opts with
  | nil => exact absurd hv (List.not_mem_nil _)
  | cons e rest ih =>
    rw [List.map_cons, List.nodup_cons] at hnd
    rcases List.mem_cons.mp hv with h1 | h1
    · rcases List.mem_cons.mp hw with h2 | h2
      · rw [← h2] at h1
        exact (Prod.mk.inj h1).2
      · exfalso
        apply hnd.1
        have hk : e.1 = k := by rw [← h1]
        rw [hk]
        exact List.mem_map_of_mem Prod.fst h2
    · rcases List.mem_cons.mp hw with h2 | h2
      · exfalso
        apply hnd.1
        have hk : e.1 = k := by rw [← h2]
        rw [hk]
        exact List.mem_map_of_mem Prod.fst h1
      · exact ih hnd.2 h1 h2

theorem foldl_addMount_lookup (newSession : Client → Bool) (k : Str) :
    ∀ (opts : List (Str × BucketOpts)) (fs : S3Fs), List.lookup k fs.buckets = none →
      (∀ kv ∈ opts, kv.1 = k → newSession (clientFor kv.2) = false) →
      List.lookup k (opts.foldl (addMount newSession) fs).buckets = none := by
  intro opts
  induction opts with
  | nil =>
    intro fs h _
    exact h
  | cons e rest ih =>
    intro fs h hfail
    rw [List.foldl_cons]
    apply ih
    · unfold addMount
      by_cases hs : newSession (clientFor e.2) = true
      · have hne : e.1 ≠ k := by
          intro heq
          have := hfail e (List.mem_cons_self _ _) heq
          rw [this] at hs
          exact Bool.false_ne_true hs
        have hbeq : (k == e.1) = false := by
          rw [beq_eq_false_iff_ne]
          exact fun h' => hne h'.symm
        simp only [hs, if_true, List.lookup_cons, hbeq]
        exact h
      · simp only [hs, if_false]
        exact h
    · intro kv hkv
      exact hfail kv (List.mem_cons_of_mem _ hkv)

theorem backLoop_ge (out : Str) (dotdot : Nat) :
    ∀ w, dotdot ≤ w → dotdot ≤ backLoop out dotdot w := by
  intro w
  induction w with
  | zero => intro h; exact h
  | succ w ih =>
    intro h
    unfold backLoop
    split_ifs with hc
    · exact ih (by omega)
    · exact h

theorem take_rooted (t : Str) (w : Nat) (hw : 1 ≤ w) :
    ∃ t1, List.take w ('/' :: t) = '/' :: t1 := by
  cases w with
  | zero => omega
  | succ w => exact ⟨List.take w t, rfl⟩

theorem startElem_rooted (t : Str) : ∃ t1, startElem true ('/' :: t) = '/' :: t1 := by
  unfold startElem
  by_cases h : (true = true ∧ ('/' :: t).length ≠ 1) ∨ (true = false ∧ ('/' :: t).length ≠ 0)
  · rw [if_pos h]
    exact ⟨t ++ ['/'], rfl⟩
  · rw [if_neg h]
    exact ⟨t, rfl⟩

/-- On a rooted path the output of `path.Clean` always starts with the slash
written first: a `..` element never backs up past it. -/
theorem cleanLoop_rooted :
    ∀ (n : Nat) (rest : Str) (flag : Bool) (t : Str), rest.length ≤ n →
      ∃ t1, cleanLoop true rest flag ('/' :: t) 1 = '/' :: t1 := by
  intro n
  induction n with
  | zero =>
    intro rest flag t hlen
    have : rest = [] := List.length_eq_zero.mp (by omega)
    subst this
    exact ⟨t, by simp [cleanLoop]⟩
  | succ n ih =>
    intro rest flag t hlen
    cases rest with
    | nil => exact ⟨t, by simp [cleanLoop]⟩
    | cons c rest1 =>
      have hlen1 : rest1.length ≤ n := by
        simp only [List.length_cons] at hlen
        omega
      cases flag with
      | true =>
        rw [cleanLoop]
        by_cases h1 : c = '/'
        · rw [if_pos h1]
          exact ih rest1 false t hlen1
        · rw [if_neg h1]
          exact ih rest1 true (t ++ [c]) hlen1
      | false =>
        obtain ⟨t0, ht0⟩ := startElem_rooted t
        cases rest1 with
        | nil =>
          rw [cleanLoop]
          by_cases h1 : c = '/'
          · rw [if_pos h1]
            exact ⟨t, rfl⟩
          · rw [if_neg h1]
            by_cases h2 : c = '.'
            · rw [if_pos h2]
              exact ⟨t, rfl⟩
            · rw [if_neg h2, ht0]
              exact ⟨t0 ++ [c], rfl⟩
        | cons d rest2 =>
          have hlen2 : rest2.length ≤ n := by
            simp only [List.length_cons] at hlen1
            omega
          rw [cleanLoop]
          by_cases h1 : c = '/'
          · rw [if_pos h1]
            exact ih (d :: rest2) false t hlen1
          · rw [if_neg h1]
            by_cases h2 : c = '.' ∧ d = '/'
            · rw [if_pos h2]
              exact ih (d :: rest2) false t hlen1
            · rw [if_neg h2]
              by_cases h3 : c = '.' ∧ d = '.' ∧ (rest2 = [] ∨ rest2.head? = some '/')
              · rw [if_pos h3]
                by_cases h4 : ('/' :: t).length > 1
                · rw [if_pos h4]
                  have hw : 1 ≤ backLoop ('/' :: t) 1 (('/' :: t).length - 1) := by
                    apply backLoop_ge
                    omega
                  obtain ⟨t1, ht1⟩ := take_rooted t _ hw
                  rw [ht1]
                  exact ih rest2 false t1 hlen2
                · rw [if_neg h4, if_neg (show ¬ (true = false) by decide)]
                  exact ih rest2 false t hlen2
              · rw [if_neg h3, ht0]
                exact ih (d :: rest2) true (t0 ++ [c]) hlen1

theorem Clean_rooted (rest : Str) : ∃ tl, Clean ('/' :: rest) = '/' :: tl := by
  obtain ⟨t1, ht1⟩ := cleanLoop_rooted rest.length rest false [] (le_refl _)
  refine ⟨t1, ?_⟩
  unfold Clean
  simp only [if_true, ht1]
  simp

/-- On a path that begins with a slash, the name `Open` looks up is the first
segment of the normalised path. -/
theorem openMount_rooted (rest : Str) :
    openMount ('/' :: rest) = some (firstSegment ('/' :: rest)) := by
  obtain ⟨tl, htl⟩ := Clean_rooted rest
  unfold openMount firstSegment
  rw [htl]
  cases hs : splitSlash tl with
  | nil => exact absurd hs (splitSlash_ne_nil tl)
  | cons s r => simp [stripSlash, hs]

/-- C7 (amended): for every request path whatsoever, `Open` performs no index
or slice out of range; and for every path that begins with a slash, when the
first segment of the normalised path is not a key of the mount table, `Open`
returns `(nil, os.ErrNotExist)` before either `getListing` or `getObject` is
called; a mount whose session could not be created by `NewS3Fs` is not in the
table built, so that such paths under it end the same way. -/
theorem Open_unknown_mount (fs : S3Fs) (newSession : Client → Bool)
    (opts : List (Str × BucketOpts)) (filePath : Str) :
    Open fs filePath ≠ Dispatch.panic ∧
    (∀ rest, filePath = '/' :: rest →
      List.lookup (firstSegment filePath) fs.buckets = none →
      Open fs filePath = Dispatch.notExist) ∧
    (∀ rest v, filePath = '/' :: rest → (opts.map Prod.fst).Nodup →
      (firstSegment filePath, v) ∈ opts → newSession (clientFor v) = false →
      List.lookup (firstSegment filePath) (NewS3Fs newSession opts).buckets = none ∧
      Open (NewS3Fs newSession opts) filePath = Dispatch.notExist) := by
  obtain ⟨mount0, hm0⟩ := openMount_some filePath
  refine ⟨(Open_by_mount fs filePath mount0 hm0).1, ?_, ?_⟩
  · intro rest hp hnone
    have hm : openMount filePath = some (firstSegment filePath) := by
      rw [hp]
      exact openMount_rooted rest
    exact (Open_by_mount fs filePath _ hm).2 hnone
  · intro rest v hp hnd hv hfail
    have hm : openMount filePath = some (firstSegment filePath) := by
      rw [hp]
      exact openMount_rooted rest
    have hlook : List.lookup (firstSegment filePath) (NewS3Fs newSession opts).buckets
        = none := by
      unfold NewS3Fs
      apply foldl_addMount_lookup newSession _ opts { clients := [], buckets := [] } rfl
      intro kv hkv hk
      have hkv' : (firstSegment filePath, kv.2) ∈ opts := by
        rw [← hk]
        exact hkv
      rw [nodup_keys_unique opts _ kv.2 v hnd hkv' hv]
      exact hfail
    exact ⟨hlook, (Open_by_mount _ filePath _ hm).2 hlook⟩

theorem Open_unknown_mount_witness :
    Open fsSample "/nosuchmount/file.txt".toList = Dispatch.notExist ∧
    Open fsSample "/".toList = Dispatch.notExist ∧
    Open fsSample "".toList ≠ Dispatch.panic ∧
    Open (NewS3Fs sessionSample optsSample) "/x/file.txt".toList = Dispatch.notExist :=
  ⟨(Open_unknown_mount fsSample sessionSample optsSample "/nosuchmount/file.txt".toList).2.1
      _ rfl (by decide),
    (Open_unknown_mount fsSample sessionSample optsSample "/".toList).2.1 _ rfl (by decide),
    (Open_unknown_mount fsSample sessionSample optsSample "".toList).1,
    ((Open_unknown_mount fsSample sessionSample optsSample "/x/file.txt".toList).2.2
      _ { Bucket := [], Region := [], Key := "k2".toList, Secret := [] }
      rfl (by decide) (by decide) (by decide)).2⟩

/-- C7 (as stated, refuted): the path `xm/a.txt` has no leading slash and its
first segment after normalisation, `xm`, is not a key of the mount table, yet
`Open` drops the first byte of the cleaned path, looks up `m` and ends in
`getObject(b, "/a.txt")`. -/
theorem Open_drops_first_byte :
    firstSegment "xm/a.txt".toList = "xm".toList ∧
    List.lookup "xm".toList fsSample.buckets = none ∧
    Open fsSample "xm/a.txt".toList = Dispatch.getObject "b".toList "/a.txt".toList ∧
    ¬ (∀ (fs : S3Fs) (filePath : Str),
        List.lookup (firstSegment filePath) fs.buckets = none →
        Open fs filePath = Dispatch.notExist) := by
  refine ⟨by decide, by decide, by decide, fun h => ?_⟩
  have h1 := h fsSample "xm/a.txt".toList (by decide)
  revert h1
  decide

end S3Proxy
